import Mathlib

/-!
# Verification of the N-dimensional math/geometry kernel

A shallow embedding, in Lean 4, of the N-dimensional vector/matrix/rotation
algebra, the polytope generators, and the projection pipeline of the
`four-d-app` repository (`src/core/math/VectorND.ts`, `src/core/math/MatrixND.ts`,
`src/core/geometry/polytopes.ts`, `src/core/projection/index.ts`).

Modelling conventions:

* A JavaScript number is modelled as an exact rational (`ℚ`); the 600-cell,
  whose coordinates live in ℚ(√5), is modelled over an explicit representation
  `Q5` of that field.  Claims stated by the spec "within tolerance /
  exactly over the reals" are settled in exact arithmetic.
* `VectorND` is the list of its components (`dimension` = list length);
  `MatrixND` is the list of its rows.
* Irrational-valued library primitives (`Math.cos`, `Math.sin`, `Math.sqrt`)
  are passed in as explicit function parameters: no claim below depends on
  their values beyond what the corresponding hypotheses state.  Angles that
  the source measures in radians (`2 * Math.PI * i / n`) are represented by
  their fraction of a full turn (`i / n`), since `2π` is not rational; the
  abstract `cos`/`sin` parameters are understood as cosine/sine of a turn.
* Methods that `throw` in the source return `Except String _`; all other
  functions are total exactly as in the source.
* Division by zero yields `0` in `ℚ` where IEEE arithmetic yields `±Infinity`
  (`perspectiveProject` at `lastCoord = viewDistance`); no claim below
  depends on the value produced there, only on dimensions/shape.
-/

set_option maxRecDepth 100000

set_option maxHeartbeats 2000000

namespace FourD

/-! ## VectorND (src/core/math/VectorND.ts) -/

namespace VectorND

/-- `get(index)`: `this.components[index] ?? 0` — out-of-range access yields 0. -/
def get (v : List ℚ) (i : ℕ) : ℚ := v.getD i 0

/-- `VectorND.zero(dimension)`: an array of `dimension` zeros. -/
def zero (n : ℕ) : List ℚ := List.replicate n 0

/-- `add`: loops `i = 0 .. max(dimA, dimB) - 1`, summing `this.get(i) + other.get(i)`. -/
def add (u v : List ℚ) : List ℚ :=
  (List.range (max u.length v.length)).map (fun i => get u i + get v i)

/-- `subtract`: same loop as `add` with `this.get(i) - other.get(i)`. -/
def subtract (u v : List ℚ) : List ℚ :=
  (List.range (max u.length v.length)).map (fun i => get u i - get v i)

/-- `scale(scalar)`: `components.map(c => c * scalar)`. -/
def scale (v : List ℚ) (k : ℚ) : List ℚ := v.map (fun c => c * k)

/-- `dot`: sums `components[i] * other.components[i]` for
`i = 0 .. min(dimA, dimB) - 1`.  Within that range raw indexing agrees with
`get`, which is what the embedding uses. -/
def dot (u v : List ℚ) : ℚ :=
  ((List.range (min u.length v.length)).map (fun i => get u i * get v i)).sum

/-- `magnitudeSquared()`: `this.dot(this)`. -/
def magnitudeSquared (v : List ℚ) : ℚ := dot v v

/-- `magnitude()`: `Math.sqrt(this.magnitudeSquared())`, with the square root
function passed in as a parameter (it is irrational-valued). -/
def magnitude (sqrt : ℚ → ℚ) (v : List ℚ) : ℚ := sqrt (magnitudeSquared v)

/-- `normalize()`: if the magnitude is 0, return the zero vector of the same
dimension; otherwise scale by `1 / mag`. -/
def normalize (sqrt : ℚ → ℚ) (v : List ℚ) : List ℚ :=
  let mag := magnitude sqrt v
  if mag = 0 then zero v.length else scale v (1 / mag)

/-- `truncate(newDimension)`: `components.slice(0, newDimension)`. -/
def truncate (v : List ℚ) (n : ℕ) : List ℚ := v.take n

end VectorND

/-! Basic facts about the vector operations. -/

theorem VectorND.get_eq_getElem (v : List ℚ) (i : ℕ) (h : i < v.length) :
    VectorND.get v i = v[i] := by
  simp [VectorND.get, List.getD_eq_getElem?_getD, List.getElem?_eq_getElem h]

theorem VectorND.get_eq_zero_of_le (v : List ℚ) (i : ℕ) (h : v.length ≤ i) :
    VectorND.get v i = 0 := by
  simp [VectorND.get, List.getD_eq_getElem?_getD, List.getElem?_eq_none h]

theorem VectorND.length_add (u v : List ℚ) :
    (VectorND.add u v).length = max u.length v.length := by
  simp [VectorND.add]

theorem VectorND.get_add (u v : List ℚ) (i : ℕ) :
    VectorND.get (VectorND.add u v) i = VectorND.get u i + VectorND.get v i := by
  rcases lt_or_le i (max u.length v.length) with h | h
  · rw [VectorND.get_eq_getElem _ i (by simpa [VectorND.length_add] using h)]
    simp [VectorND.add, h]
  · rw [VectorND.get_eq_zero_of_le _ i (by simpa [VectorND.length_add] using h)]
    rw [VectorND.get_eq_zero_of_le u i (le_trans (le_max_left _ _) h),
      VectorND.get_eq_zero_of_le v i (le_trans (le_max_right _ _) h)]
    norm_num

theorem VectorND.length_subtract (u v : List ℚ) :
    (VectorND.subtract u v).length = max u.length v.length := by
  simp [VectorND.subtract]

theorem VectorND.get_subtract (u v : List ℚ) (i : ℕ) :
    VectorND.get (VectorND.subtract u v) i = VectorND.get u i - VectorND.get v i := by
  rcases lt_or_le i (max u.length v.length) with h | h
  · rw [VectorND.get_eq_getElem _ i (by simpa [VectorND.length_subtract] using h)]
    simp [VectorND.subtract, h]
  · rw [VectorND.get_eq_zero_of_le _ i (by simpa [VectorND.length_subtract] using h)]
    rw [VectorND.get_eq_zero_of_le u i (le_trans (le_max_left _ _) h),
      VectorND.get_eq_zero_of_le v i (le_trans (le_max_right _ _) h)]
    norm_num

/-- Summing a function over `List.range n` agrees with the `Finset.range` sum. -/
theorem list_range_map_sum {M : Type} [AddCommMonoid M] (n : ℕ) (f : ℕ → M) :
    ((List.range n).map f).sum = ∑ i ∈ Finset.range n, f i := by
  induction n with
  | zero => simp
  | succ n ih =>
      rw [List.range_succ, List.map_append, List.sum_append, Finset.sum_range_succ, ih]
      simp

theorem VectorND.dot_eq_sum (u v : List ℚ) :
    VectorND.dot u v =
      ∑ i ∈ Finset.range (min u.length v.length), VectorND.get u i * VectorND.get v i := by
  rw [VectorND.dot, list_range_map_sum]

/-- **C1.** `add`/`subtract` return a vector of dimension `max(dim u, dim v)`
whose component `i` is `u.get(i) ± v.get(i)` (missing components read as 0,
via `get`'s out-of-range-is-0 policy), while `dot` sums products over only the
first `min(dim u, dim v)` components.  All three are total functions —
dimension mismatch never produces an error. -/
theorem claim_C1_vector_policies (u v : List ℚ) :
    (VectorND.add u v).length = max u.length v.length ∧
    (VectorND.subtract u v).length = max u.length v.length ∧
    (∀ i, VectorND.get (VectorND.add u v) i = VectorND.get u i + VectorND.get v i) ∧
    (∀ i, VectorND.get (VectorND.subtract u v) i = VectorND.get u i - VectorND.get v i) ∧
    VectorND.dot u v =
      ∑ i ∈ Finset.range (min u.length v.length), VectorND.get u i * VectorND.get v i := by
  exact ⟨VectorND.length_add u v, VectorND.length_subtract u v,
    fun i => VectorND.get_add u v i, fun i => VectorND.get_subtract u v i,
    VectorND.dot_eq_sum u v⟩

/-! ## MatrixND (src/core/math/MatrixND.ts)

A matrix is the list of its rows; `size` = number of rows.  Methods that
`throw new Error(...)` in the source return `Except String _` here. -/

/-- Decidable equality of `Except` results, used to evaluate concrete runs. -/
instance {ε α : Type} [DecidableEq ε] [DecidableEq α] : DecidableEq (Except ε α) := fun x y =>
  match x, y with
  | Except.error e, Except.error f =>
      if h : e = f then isTrue (by rw [h])
      else isFalse (by intro hh; injection hh; exact h ‹_›)
  | Except.error _, Except.ok _ => isFalse (by intro hh; exact Except.noConfusion hh)
  | Except.ok _, Except.error _ => isFalse (by intro hh; exact Except.noConfusion hh)
  | Except.ok a, Except.ok b =>
      if h : a = b then isTrue (by rw [h])
      else isFalse (by intro hh; injection hh; exact h ‹_›)

/-- A computation `throws` when it returns an `Except.error`. -/
def Throws {α : Type} (x : Except String α) : Prop := ∃ e, x = Except.error e

theorem throws_error {α : Type} (e : String) : Throws (Except.error e : Except String α) :=
  ⟨e, rfl⟩

theorem not_throws_ok {α : Type} (a : α) : ¬ Throws (Except.ok a : Except String α) := by
  rintro ⟨e, h⟩
  exact Except.noConfusion h

namespace MatrixND

/-- `get(row, col)`: `this.data[row]?.[col] ?? 0` — 0 for out-of-range access. -/
def mget (m : List (List ℚ)) (i j : ℕ) : ℚ := (m.getD i []).getD j 0

/-- `MatrixND.identity(size)`: rows of zeros with a 1 at the diagonal position. -/
def identity (n : ℕ) : List (List ℚ) :=
  (List.range n).map (fun i => (List.range n).map (fun j => if j = i then 1 else 0))

/-- `MatrixND.rotation(size, axis1, axis2, angle)`: the identity with the four
plane cells overwritten (`[a1][a1] = cos`, `[a1][a2] = -sin`, `[a2][a1] = sin`,
`[a2][a2] = cos`).  The source computes `cos = Math.cos(angle)` and
`sin = Math.sin(angle)`; the embedding receives those two values directly as
`c` and `s`.  The if-chain tests the four cells in reverse assignment order so
that, as with the source's sequential mutations, the last write wins (only
relevant when `axis1 = axis2`, which `RotationND`'s constructor rules out). -/
def rotation (n a1 a2 : ℕ) (c s : ℚ) : List (List ℚ) :=
  (List.range n).map (fun i => (List.range n).map (fun j =>
    if i = a2 ∧ j = a2 then c
    else if i = a2 ∧ j = a1 then s
    else if i = a1 ∧ j = a2 then -s
    else if i = a1 ∧ j = a1 then c
    else if j = i then 1 else 0))

/-- The row/column arithmetic of `multiply`, for matrices of equal size
(raw in-bounds indexing in the source, `mget` here). -/
def multiplyCore (m other : List (List ℚ)) : List (List ℚ) :=
  (List.range m.length).map (fun i => (List.range m.length).map (fun j =>
    ∑ k ∈ Finset.range m.length, mget m i k * mget other k j))

/-- `multiply(other)`: throws `Matrix size mismatch` when the sizes differ,
otherwise the standard row-by-column product `this × other`. -/
def multiply (m other : List (List ℚ)) : Except String (List (List ℚ)) :=
  if m.length ≠ other.length then Except.error "Matrix size mismatch"
  else Except.ok (multiplyCore m other)

/-- The matrix–vector arithmetic of `transform`:
`result[i] = Σ_j data[i][j] * vector.get(j)`. -/
def transformCore (m : List (List ℚ)) (v : List ℚ) : List ℚ :=
  (List.range m.length).map (fun i =>
    ∑ j ∈ Finset.range m.length, mget m i j * VectorND.get v j)

/-- `transform(vector)`: throws when the vector dimension differs from the
matrix size, otherwise the matrix–vector product. -/
def transform (m : List (List ℚ)) (v : List ℚ) : Except String (List ℚ) :=
  if v.length ≠ m.length then
    Except.error "Vector dimension doesn't match matrix size"
  else Except.ok (transformCore m v)

end MatrixND

/-! ## RotationND (src/core/math/RotationND.ts) -/

/-- `RotationND`: a rotation plane `(axis1, axis2)` in a given dimension plus
an angle.  The angle enters the original code only through `Math.cos(angle)`
and `Math.sin(angle)` (inside `MatrixND.rotation`), so the embedding stores
those two values `c` and `s` in place of the angle. -/
structure RotationND where
  dimension : ℕ
  axis1 : ℕ
  axis2 : ℕ
  c : ℚ
  s : ℚ
deriving DecidableEq

/-- The `RotationND` constructor: throws if the two axes are equal or either
axis is out of bounds; otherwise stores `min`/`max` of the two axes (silently
reordering them) and the angle. -/
def RotationND.make (dimension axis1 axis2 : ℕ) (c s : ℚ) : Except String RotationND :=
  if axis1 = axis2 then
    Except.error "Rotation plane must be defined by two different axes"
  else if axis1 ≥ dimension ∨ axis2 ≥ dimension then
    Except.error "Axes out of bounds for dimension"
  else Except.ok ⟨dimension, min axis1 axis2, max axis1 axis2, c, s⟩

/-- `toMatrix()`: delegates to `MatrixND.rotation`. -/
def RotationND.toMatrix (r : RotationND) : List (List ℚ) :=
  MatrixND.rotation r.dimension r.axis1 r.axis2 r.c r.s

/-- `apply(vector)`: throws if the vector dimension differs from the rotation
dimension, otherwise `this.toMatrix().transform(vector)`. -/
def RotationND.apply (r : RotationND) (v : List ℚ) : Except String (List ℚ) :=
  if v.length ≠ r.dimension then
    Except.error "Vector dimension doesn't match rotation dimension"
  else MatrixND.transform r.toMatrix v

/-- One iteration of `compose`'s loop: check the rotation's dimension, then
`result = rotation.toMatrix().multiply(result)` (error states propagate). -/
def RotationND.composeStep (dimension : ℕ) (acc : Except String (List (List ℚ)))
    (r : RotationND) : Except String (List (List ℚ)) :=
  match acc with
  | Except.error e => Except.error e
  | Except.ok m =>
      if r.dimension ≠ dimension then
        Except.error "All rotations must have the same dimension"
      else MatrixND.multiply r.toMatrix m

/-- `RotationND.compose(rotations)`: throws on the empty list; otherwise folds
the loop body over the whole list starting from the identity matrix of the
first rotation's dimension. -/
def RotationND.compose (rotations : List RotationND) : Except String (List (List ℚ)) :=
  match rotations with
  | [] => Except.error "Cannot compose empty rotation list"
  | r0 :: _ =>
      rotations.foldl (RotationND.composeStep r0.dimension)
        (Except.ok (MatrixND.identity r0.dimension))

/-! Shape lemmas for the matrix operations. -/

theorem MatrixND.length_identity (n : ℕ) : (MatrixND.identity n).length = n := by
  simp [MatrixND.identity]

theorem MatrixND.length_rotation (n a1 a2 : ℕ) (c s : ℚ) :
    (MatrixND.rotation n a1 a2 c s).length = n := by
  simp [MatrixND.rotation]

theorem MatrixND.length_multiplyCore (m other : List (List ℚ)) :
    (MatrixND.multiplyCore m other).length = m.length := by
  simp [MatrixND.multiplyCore]

theorem MatrixND.length_transformCore (m : List (List ℚ)) (v : List ℚ) :
    (MatrixND.transformCore m v).length = m.length := by
  simp [MatrixND.transformCore]

theorem MatrixND.throws_multiply_iff (m other : List (List ℚ)) :
    Throws (MatrixND.multiply m other) ↔ m.length ≠ other.length := by
  unfold MatrixND.multiply
  by_cases h : m.length = other.length
  · rw [if_neg (by simp [h])]
    simp only [h, ne_eq, not_true_eq_false, iff_false]
    exact not_throws_ok _
  · rw [if_pos h]
    exact ⟨fun _ => h, fun _ => throws_error _⟩

theorem MatrixND.throws_transform_iff (m : List (List ℚ)) (v : List ℚ) :
    Throws (MatrixND.transform m v) ↔ v.length ≠ m.length := by
  unfold MatrixND.transform
  by_cases h : v.length = m.length
  · rw [if_neg (by simp [h])]
    simp only [h, ne_eq, not_true_eq_false, iff_false]
    exact not_throws_ok _
  · rw [if_pos h]
    exact ⟨fun _ => h, fun _ => throws_error _⟩

theorem RotationND.length_toMatrix (r : RotationND) : r.toMatrix.length = r.dimension :=
  MatrixND.length_rotation _ _ _ _ _

theorem RotationND.throws_make_iff (d a1 a2 : ℕ) (c s : ℚ) :
    Throws (RotationND.make d a1 a2 c s) ↔ a1 = a2 ∨ a1 ≥ d ∨ a2 ≥ d := by
  unfold RotationND.make
  by_cases h1 : a1 = a2
  · rw [if_pos h1]
    exact ⟨fun _ => Or.inl h1, fun _ => throws_error _⟩
  · rw [if_neg h1]
    by_cases h2 : a1 ≥ d ∨ a2 ≥ d
    · rw [if_pos h2]
      exact ⟨fun _ => Or.inr h2, fun _ => throws_error _⟩
    · rw [if_neg h2]
      constructor
      · intro h
        exact absurd h (not_throws_ok _)
      · rintro (h | h)
        · exact absurd h h1
        · exact absurd h h2

theorem RotationND.throws_apply_iff (r : RotationND) (v : List ℚ) :
    Throws (r.apply v) ↔ v.length ≠ r.dimension := by
  unfold RotationND.apply
  by_cases h : v.length = r.dimension
  · rw [if_neg (by simp [h])]
    simp only [h, ne_eq, not_true_eq_false, iff_false]
    rw [MatrixND.throws_transform_iff]
    simp [h, RotationND.length_toMatrix]
  · rw [if_pos h]
    exact ⟨fun _ => h, fun _ => throws_error _⟩

/-! `compose`'s loop: once an error state is reached it propagates; as long as
every rotation matches the target dimension the accumulated matrix stays
`size = dimension` and no step throws. -/

theorem RotationND.foldl_composeStep_error (l : List RotationND) (d : ℕ) (e : String) :
    l.foldl (RotationND.composeStep d) (Except.error e) = Except.error e := by
  induction l with
  | nil => rfl
  | cons r l ih => simpa [RotationND.composeStep] using ih

theorem RotationND.foldl_composeStep_ok (l : List RotationND) (d : ℕ)
    (m : List (List ℚ)) (hm : m.length = d) (hl : ∀ r ∈ l, r.dimension = d) :
    l.foldl (RotationND.composeStep d) (Except.ok m) =
      Except.ok (l.foldl (fun acc r => MatrixND.multiplyCore r.toMatrix acc) m) ∧
    (l.foldl (fun acc r => MatrixND.multiplyCore r.toMatrix acc) m).length = d := by
  induction l generalizing m with
  | nil => exact ⟨rfl, hm⟩
  | cons r l ih =>
      have hr : r.dimension = d := hl r (List.mem_cons_self r l)
      have hstep : RotationND.composeStep d (Except.ok m) r =
          Except.ok (MatrixND.multiplyCore r.toMatrix m) := by
        simp only [RotationND.composeStep, MatrixND.multiply]
        rw [if_neg (by simp [hr]), if_neg (by simp [RotationND.length_toMatrix, hr, hm])]
      have hlen : (MatrixND.multiplyCore r.toMatrix m).length = d := by
        rw [MatrixND.length_multiplyCore, RotationND.length_toMatrix, hr]
      have := ih (MatrixND.multiplyCore r.toMatrix m) hlen
        (fun r' h' => hl r' (List.mem_cons_of_mem r h'))
      simpa [hstep] using this

theorem RotationND.foldl_composeStep_throws (l : List RotationND) (d : ℕ)
    (m : List (List ℚ)) (hm : m.length = d) (hl : ∃ r ∈ l, r.dimension ≠ d) :
    Throws (l.foldl (RotationND.composeStep d) (Except.ok m)) := by
  induction l generalizing m with
  | nil => simp at hl
  | cons r l ih =>
      by_cases hr : r.dimension = d
      · have hstep : RotationND.composeStep d (Except.ok m) r =
            Except.ok (MatrixND.multiplyCore r.toMatrix m) := by
          simp only [RotationND.composeStep, MatrixND.multiply]
          rw [if_neg (by simp [hr]), if_neg (by simp [RotationND.length_toMatrix, hr, hm])]
        have hlen : (MatrixND.multiplyCore r.toMatrix m).length = d := by
          rw [MatrixND.length_multiplyCore, RotationND.length_toMatrix, hr]
        rcases hl with ⟨r', hr', hne⟩
        rcases List.mem_cons.mp hr' with h | h
        · exact absurd (h ▸ hr) hne
        · simpa [hstep] using ih (MatrixND.multiplyCore r.toMatrix m) hlen ⟨r', h, hne⟩
      · have hstep : RotationND.composeStep d (Except.ok m) r =
            Except.error "All rotations must have the same dimension" := by
          simp only [RotationND.composeStep]
          rw [if_pos hr]
        simp only [List.foldl_cons, hstep]
        rw [RotationND.foldl_composeStep_error]
        exact throws_error _

theorem RotationND.throws_compose_nil : Throws (RotationND.compose []) :=
  throws_error _

theorem RotationND.throws_compose_iff (r0 : RotationND) (rs : List RotationND) :
    Throws (RotationND.compose (r0 :: rs)) ↔
      ∃ r ∈ r0 :: rs, r.dimension ≠ r0.dimension := by
  constructor
  · intro h
    by_contra hall
    push_neg at hall
    have := (RotationND.foldl_composeStep_ok (r0 :: rs) r0.dimension
      (MatrixND.identity r0.dimension) (MatrixND.length_identity _) hall).1
    rw [RotationND.compose] at h
    rw [this] at h
    exact not_throws_ok _ h
  · intro h
    rw [RotationND.compose]
    exact RotationND.foldl_composeStep_throws _ _ _ (MatrixND.length_identity _) h

/-- **C6.** Each structural operation throws exactly when its dimension/axis
precondition is violated and never otherwise: `MatrixND.multiply` iff the two
sizes differ; `MatrixND.transform` iff the vector dimension differs from the
matrix size; the `RotationND` constructor iff `axis1 = axis2` or either axis
is `≥ dimension`; `RotationND.apply` iff the vector dimension differs from the
rotation dimension; `RotationND.compose` iff the list is empty or contains a
rotation whose dimension differs from the first rotation's dimension. -/
theorem claim_C6_throw_conditions :
    (∀ m other : List (List ℚ), Throws (MatrixND.multiply m other) ↔
        m.length ≠ other.length) ∧
    (∀ (m : List (List ℚ)) (v : List ℚ), Throws (MatrixND.transform m v) ↔
        v.length ≠ m.length) ∧
    (∀ (d a1 a2 : ℕ) (c s : ℚ), Throws (RotationND.make d a1 a2 c s) ↔
        a1 = a2 ∨ a1 ≥ d ∨ a2 ≥ d) ∧
    (∀ (r : RotationND) (v : List ℚ), Throws (r.apply v) ↔ v.length ≠ r.dimension) ∧
    Throws (RotationND.compose []) ∧
    (∀ (r0 : RotationND) (rs : List RotationND),
        Throws (RotationND.compose (r0 :: rs)) ↔
          ∃ r ∈ r0 :: rs, r.dimension ≠ r0.dimension) :=
  ⟨MatrixND.throws_multiply_iff, MatrixND.throws_transform_iff,
    RotationND.throws_make_iff, RotationND.throws_apply_iff,
    RotationND.throws_compose_nil, RotationND.throws_compose_iff⟩

/-- On a list of rotations that all share the first rotation's dimension,
`compose` succeeds and returns the left-multiplication fold
`result = rotationMatrix × result` over the list, seeded with the identity. -/
theorem RotationND.compose_eq_foldl (r0 : RotationND) (rs : List RotationND)
    (h : ∀ r ∈ r0 :: rs, r.dimension = r0.dimension) :
    RotationND.compose (r0 :: rs) =
      Except.ok ((r0 :: rs).foldl (fun acc r => MatrixND.multiplyCore r.toMatrix acc)
        (MatrixND.identity r0.dimension)) := by
  rw [RotationND.compose]
  exact (RotationND.foldl_composeStep_ok (r0 :: rs) r0.dimension
    (MatrixND.identity r0.dimension) (MatrixND.length_identity _) h).1

/-- **C3.** `RotationND.compose` builds the identity and left-multiplies each
rotation's matrix in list order (`result = rotationMatrix × result`), so the
first rotation of the list acts on a vector first.  Concretely (in dimension 3,
with `cos 90° = 0` and `sin 90° = 1` supplied as the stored cosine/sine):
composing `[rotation(XY, 90°), rotation(YZ, 90°)]` and transforming `(1,0,0)`
yields `(0,0,1)`, and the swapped composition yields `(0,1,0) ≠ (0,0,1)`. -/
theorem claim_C3_compose_order :
    (∀ (r0 : RotationND) (rs : List RotationND),
        (∀ r ∈ r0 :: rs, r.dimension = r0.dimension) →
        RotationND.compose (r0 :: rs) =
          Except.ok ((r0 :: rs).foldl (fun acc r => MatrixND.multiplyCore r.toMatrix acc)
            (MatrixND.identity r0.dimension))) ∧
    (RotationND.compose [⟨3, 0, 1, 0, 1⟩, ⟨3, 1, 2, 0, 1⟩]).bind
        (fun m => MatrixND.transform m [1, 0, 0]) = Except.ok [0, 0, 1] ∧
    (RotationND.compose [⟨3, 1, 2, 0, 1⟩, ⟨3, 0, 1, 0, 1⟩]).bind
        (fun m => MatrixND.transform m [1, 0, 0]) = Except.ok [0, 1, 0] ∧
    ([0, 1, 0] : List ℚ) ≠ [0, 0, 1] := by
  refine ⟨RotationND.compose_eq_foldl, by with_unfolding_all rfl,
    by with_unfolding_all rfl, by simp⟩

/-- Witness for C3's universally quantified part, at the one-element list
`[rotation(XY, 90°)]` in dimension 3. -/
theorem claim_C3_witness :
    (∀ r ∈ [(⟨3, 0, 1, 0, 1⟩ : RotationND)], r.dimension = 3) ∧
    RotationND.compose [⟨3, 0, 1, 0, 1⟩] =
      Except.ok ([(⟨3, 0, 1, 0, 1⟩ : RotationND)].foldl
        (fun acc r => MatrixND.multiplyCore r.toMatrix acc) (MatrixND.identity 3)) := by
  refine ⟨by simp, claim_C3_compose_order.1 ⟨3, 0, 1, 0, 1⟩ [] (by simp)⟩

/-! Entry-level description of the rotation matrix and of matrix–vector
transformation, used to prove that rotations preserve the squared magnitude. -/

theorem VectorND.magSq_eq_sum (v : List ℚ) :
    VectorND.magnitudeSquared v =
      ∑ i ∈ Finset.range v.length, VectorND.get v i * VectorND.get v i := by
  rw [VectorND.magnitudeSquared, VectorND.dot_eq_sum, min_self]

theorem getD_map_range {α : Type} (n : ℕ) (f : ℕ → α) (d : α) (i : ℕ) (hi : i < n) :
    ((List.range n).map f).getD i d = f i := by
  rw [List.getD_eq_getElem?_getD, List.getElem?_map, List.getElem?_range hi]
  rfl

theorem MatrixND.mget_rotation (n a1 a2 : ℕ) (c s : ℚ) (i j : ℕ)
    (hi : i < n) (hj : j < n) :
    MatrixND.mget (MatrixND.rotation n a1 a2 c s) i j =
      (if i = a2 ∧ j = a2 then c
       else if i = a2 ∧ j = a1 then s
       else if i = a1 ∧ j = a2 then -s
       else if i = a1 ∧ j = a1 then c
       else if j = i then 1 else 0) := by
  unfold MatrixND.mget MatrixND.rotation
  rw [getD_map_range n _ _ i hi, getD_map_range n _ _ j hj]

theorem MatrixND.get_transformCore (m : List (List ℚ)) (v : List ℚ) (i : ℕ)
    (hi : i < m.length) :
    VectorND.get (MatrixND.transformCore m v) i =
      ∑ j ∈ Finset.range m.length, MatrixND.mget m i j * VectorND.get v j := by
  rw [VectorND.get_eq_getElem _ i (by simpa [MatrixND.length_transformCore] using hi)]
  simp [MatrixND.transformCore]

theorem sum_ite_single (n a : ℕ) (ha : a < n) (x : ℚ) :
    (∑ j ∈ Finset.range n, if j = a then x else 0) = x := by
  rw [Finset.sum_ite_eq' (Finset.range n) a (fun _ => x)]
  simp [Finset.mem_range.mpr ha]

theorem MatrixND.get_transformCore_rotation (n a1 a2 : ℕ) (c s : ℚ) (v : List ℚ)
    (h1 : a1 < n) (h2 : a2 < n) (hne : a1 ≠ a2) (i : ℕ) (hi : i < n) :
    VectorND.get (MatrixND.transformCore (MatrixND.rotation n a1 a2 c s) v) i =
      (if i = a1 then c * VectorND.get v a1 - s * VectorND.get v a2
       else if i = a2 then s * VectorND.get v a1 + c * VectorND.get v a2
       else VectorND.get v i) := by
  rw [MatrixND.get_transformCore _ _ i (by rwa [MatrixND.length_rotation]),
    MatrixND.length_rotation]
  by_cases hia1 : i = a1
  · subst hia1
    rw [if_pos rfl]
    have hrw : ∀ j ∈ Finset.range n,
        MatrixND.mget (MatrixND.rotation n i a2 c s) i j * VectorND.get v j =
          (if j = i then c * VectorND.get v i else 0) +
            (if j = a2 then -s * VectorND.get v a2 else 0) := by
      intro j hj
      rw [MatrixND.mget_rotation n i a2 c s i j hi (Finset.mem_range.mp hj)]
      by_cases hj2 : j = a2
      · subst hj2
        simp [hne, Ne.symm hne]
      · by_cases hji : j = i
        · subst hji
          simp [hne, hj2]
        · simp [hne, hj2, hji, Ne.symm hne]
    rw [Finset.sum_congr rfl hrw, Finset.sum_add_distrib,
      sum_ite_single n i hi, sum_ite_single n a2 h2]
    ring
  · by_cases hia2 : i = a2
    · subst hia2
      rw [if_neg hia1, if_pos rfl]
      have hrw : ∀ j ∈ Finset.range n,
          MatrixND.mget (MatrixND.rotation n a1 i c s) i j * VectorND.get v j =
            (if j = a1 then s * VectorND.get v a1 else 0) +
              (if j = i then c * VectorND.get v i else 0) := by
        intro j hj
        rw [MatrixND.mget_rotation n a1 i c s i j hi (Finset.mem_range.mp hj)]
        by_cases hj1 : j = a1
        · subst hj1
          simp [hia1, Ne.symm hia1]
        · by_cases hji : j = i
          · subst hji
            simp [hia1, hj1]
          · simp [hia1, hj1, hji]
      rw [Finset.sum_congr rfl hrw, Finset.sum_add_distrib,
        sum_ite_single n a1 h1, sum_ite_single n i hi]
    · rw [if_neg hia1, if_neg hia2]
      have hrw : ∀ j ∈ Finset.range n,
          MatrixND.mget (MatrixND.rotation n a1 a2 c s) i j * VectorND.get v j =
            (if j = i then VectorND.get v i else 0) := by
        intro j hj
        rw [MatrixND.mget_rotation n a1 a2 c s i j hi (Finset.mem_range.mp hj)]
        by_cases hji : j = i
        · subst hji
          simp [hia1, hia2]
        · simp [hia1, hia2, hji]
      rw [Finset.sum_congr rfl hrw, sum_ite_single n i hi]

theorem MatrixND.magSq_transformCore_rotation (n a1 a2 : ℕ) (c s : ℚ) (v : List ℚ)
    (h1 : a1 < n) (h2 : a2 < n) (hne : a1 ≠ a2) (hcs : c ^ 2 + s ^ 2 = 1)
    (hv : v.length = n) :
    VectorND.magnitudeSquared (MatrixND.transformCore (MatrixND.rotation n a1 a2 c s) v) =
      VectorND.magnitudeSquared v := by
  have hw : (MatrixND.transformCore (MatrixND.rotation n a1 a2 c s) v).length = n := by
    rw [MatrixND.length_transformCore, MatrixND.length_rotation]
  rw [VectorND.magSq_eq_sum, VectorND.magSq_eq_sum, hw, hv]
  have hsub : ({a1, a2} : Finset ℕ) ⊆ Finset.range n := by
    intro x hx
    rcases Finset.mem_insert.mp hx with h | h
    · exact Finset.mem_range.mpr (h ▸ h1)
    · exact Finset.mem_range.mpr ((Finset.mem_singleton.mp h) ▸ h2)
  rw [← Finset.sum_sdiff hsub, ← Finset.sum_sdiff (f := fun i =>
    VectorND.get v i * VectorND.get v i) hsub]
  congr 1
  · refine Finset.sum_congr rfl ?_
    intro i hi
    rcases Finset.mem_sdiff.mp hi with ⟨hin, hnot⟩
    have hi1 : i ≠ a1 := fun h => hnot (by simp [h])
    have hi2 : i ≠ a2 := fun h => hnot (by simp [h])
    rw [MatrixND.get_transformCore_rotation n a1 a2 c s v h1 h2 hne i
      (Finset.mem_range.mp hin), if_neg hi1, if_neg hi2]
  · rw [Finset.sum_pair hne, Finset.sum_pair hne]
    rw [MatrixND.get_transformCore_rotation n a1 a2 c s v h1 h2 hne a1 h1,
      MatrixND.get_transformCore_rotation n a1 a2 c s v h1 h2 hne a2 h2,
      if_pos rfl, if_neg (Ne.symm hne), if_pos rfl]
    linear_combination
      (VectorND.get v a1 * VectorND.get v a1 + VectorND.get v a2 * VectorND.get v a2) * hcs

/-- **C8.** For every dimension, every valid rotation plane (`axis1 ≠ axis2`,
both `< dimension`, as enforced by the constructor) and every angle whose
cosine/sine pair satisfies `c² + s² = 1`, `RotationND.apply` preserves the
squared magnitude of every vector of matching dimension — exactly, in exact
arithmetic (hence rotation preserves magnitude over the reals). -/
theorem claim_C8_rotation_preserves_magnitude (d a1 a2 : ℕ) (c s : ℚ)
    (r : RotationND) (v w : List ℚ)
    (hmk : RotationND.make d a1 a2 c s = Except.ok r)
    (happ : r.apply v = Except.ok w)
    (hcs : c ^ 2 + s ^ 2 = 1) :
    VectorND.magnitudeSquared w = VectorND.magnitudeSquared v := by
  unfold RotationND.make at hmk
  by_cases hax : a1 = a2
  · rw [if_pos hax] at hmk
    exact Except.noConfusion hmk
  · rw [if_neg hax] at hmk
    by_cases hbd : a1 ≥ d ∨ a2 ≥ d
    · rw [if_pos hbd] at hmk
      exact Except.noConfusion hmk
    · rw [if_neg hbd] at hmk
      push_neg at hbd
      injection hmk with hr
      subst hr
      unfold RotationND.apply at happ
      by_cases hlen : v.length ≠ d
      · rw [if_pos hlen] at happ
        exact Except.noConfusion happ
      · rw [if_neg hlen] at happ
        push_neg at hlen
        unfold MatrixND.transform at happ
        rw [if_neg (by simp [RotationND.toMatrix, MatrixND.length_rotation, hlen])] at happ
        injection happ with hw
        subst hw
        have hminmax : min a1 a2 ≠ max a1 a2 := by
          rcases le_total a1 a2 with h | h
          · rw [min_eq_left h, max_eq_right h]
            exact hax
          · rw [min_eq_right h, max_eq_left h]
            exact Ne.symm hax
        exact MatrixND.magSq_transformCore_rotation d (min a1 a2) (max a1 a2) c s v
          (lt_of_le_of_lt (min_le_left _ _) hbd.1)
          (max_lt hbd.1 hbd.2) hminmax hcs hlen

/-- Witness for C8: the 3-4-5 rotation in the XY plane of dimension 2 applied
to `(1, 0)`. -/
theorem claim_C8_witness :
    RotationND.make 2 0 1 (3/5) (4/5) = Except.ok ⟨2, 0, 1, 3/5, 4/5⟩ ∧
    RotationND.apply ⟨2, 0, 1, 3/5, 4/5⟩ [1, 0] = Except.ok [3/5, 4/5] ∧
    ((3/5 : ℚ) ^ 2 + (4/5) ^ 2 = 1) ∧
    VectorND.magnitudeSquared [3/5, 4/5] = VectorND.magnitudeSquared [1, 0] :=
  ⟨by with_unfolding_all rfl, by with_unfolding_all rfl, by norm_num,
    claim_C8_rotation_preserves_magnitude 2 0 1 (3/5) (4/5) ⟨2, 0, 1, 3/5, 4/5⟩
      [1, 0] [3/5, 4/5] (by with_unfolding_all rfl) (by with_unfolding_all rfl)
      (by norm_num)⟩

/-! ## Projection pipeline (src/core/projection/index.ts) -/

/-- The three projection types (`ProjectionType` is a closed union of string
literals in the source). -/
inductive ProjectionType : Type
  | perspective
  | orthographic
  | stereographic
deriving DecidableEq

/-- `ProjectionConfig`: a plain configuration value; the optional fields
default to `viewDistance = 2` / `poleDistance = 1` at the use sites
(`config.viewDistance ?? 2`, `config.poleDistance ?? 1`). -/
structure ProjectionConfig where
  type : ProjectionType
  viewDistance : Option ℚ
  poleDistance : Option ℚ
deriving DecidableEq

/-- `perspectiveProject(point, viewDistance = 2)`: a point of dimension `< 2`
is returned unchanged; otherwise the first `n - 1` coordinates are scaled by
`viewDistance / (viewDistance - lastCoord)` and the last coordinate is
dropped.  (At `lastCoord = viewDistance` the source produces IEEE infinities;
`ℚ` division-by-zero yields 0 components — no claim below depends on the
values at that singularity.) -/
def perspectiveProject (point : List ℚ) (viewDistance : ℚ) : List ℚ :=
  let n := point.length
  if n < 2 then point
  else
    let lastCoord := VectorND.get point (n - 1)
    let scale := viewDistance / (viewDistance - lastCoord)
    (List.range (n - 1)).map (fun i => VectorND.get point i * scale)

/-- `orthographicProject(point)`: `point.truncate(point.dimension - 1)` —
drop the last coordinate unchanged. -/
def orthographicProject (point : List ℚ) : List ℚ :=
  VectorND.truncate point (point.length - 1)

/-- `stereographicProject(point, poleDistance = 1)`: same algebraic form as
the perspective projection with `poleDistance` in place of `viewDistance`. -/
def stereographicProject (point : List ℚ) (poleDistance : ℚ) : List ℚ :=
  let n := point.length
  if n < 2 then point
  else
    let lastCoord := VectorND.get point (n - 1)
    let scale := poleDistance / (poleDistance - lastCoord)
    (List.range (n - 1)).map (fun i => VectorND.get point i * scale)

/-- `project(point, config)`: dispatch on `config.type` with the defaulted
parameters.  (The source's `default:` fallback to orthographic is unreachable
for the closed `ProjectionType` union.) -/
def project (point : List ℚ) (config : ProjectionConfig) : List ℚ :=
  match config.type with
  | ProjectionType.perspective => perspectiveProject point (config.viewDistance.getD 2)
  | ProjectionType.orthographic => orthographicProject point
  | ProjectionType.stereographic => stereographicProject point (config.poleDistance.getD 1)

/-- The `while (current.dimension > 3)` loop of `projectTo3D`, with explicit
fuel.  Each `project` step strictly reduces the dimension (see
`length_project` below), so fuel `point.dimension` is enough for the loop to
reach its exit condition; `projectTo3D` below supplies exactly that. -/
def projectLoop : ℕ → List ℚ → ProjectionConfig → List ℚ
  | 0, p, _ => p
  | fuel + 1, p, config => if 3 < p.length then projectLoop fuel (project p config) config else p

/-- `projectTo3D(point, config)`: repeatedly apply `project` with the same
config until the dimension is `≤ 3`. -/
def projectTo3D (point : List ℚ) (config : ProjectionConfig) : List ℚ :=
  projectLoop point.length point config

/-! Dimension bookkeeping for the projection pipeline. -/

theorem length_perspectiveProject (p : List ℚ) (vd : ℚ) (h : 2 ≤ p.length) :
    (perspectiveProject p vd).length = p.length - 1 := by
  rw [perspectiveProject]
  simp only []
  rw [if_neg (by omega)]
  simp

theorem length_stereographicProject (p : List ℚ) (pd : ℚ) (h : 2 ≤ p.length) :
    (stereographicProject p pd).length = p.length - 1 := by
  rw [stereographicProject]
  simp only []
  rw [if_neg (by omega)]
  simp

theorem length_orthographicProject (p : List ℚ) :
    (orthographicProject p).length = p.length - 1 := by
  simp [orthographicProject, VectorND.truncate]

theorem length_project (p : List ℚ) (config : ProjectionConfig) (h : 2 ≤ p.length) :
    (project p config).length = p.length - 1 := by
  rw [project]
  cases config.type
  · exact length_perspectiveProject p _ h
  · exact length_orthographicProject p
  · exact length_stereographicProject p _ h

theorem projectLoop_length (fuel : ℕ) (p : List ℚ) (config : ProjectionConfig)
    (hf : p.length ≤ fuel + 3) (h3 : 3 ≤ p.length) :
    (projectLoop fuel p config).length = 3 := by
  induction fuel generalizing p with
  | zero =>
      rw [projectLoop]
      omega
  | succ fuel ih =>
      rw [projectLoop]
      by_cases h : 3 < p.length
      · rw [if_pos h]
        have hlen := length_project p config (by omega)
        exact ih (project p config) (by omega) (by omega)
      · rw [if_neg h]
        omega

theorem projectTo3D_length (p : List ℚ) (config : ProjectionConfig) (h3 : 3 ≤ p.length) :
    (projectTo3D p config).length = 3 :=
  projectLoop_length p.length p config (by omega) h3

theorem projectTo3D_id_of_dim3 (p : List ℚ) (config : ProjectionConfig)
    (h : p.length = 3) : projectTo3D p config = p := by
  rw [projectTo3D, h]
  rw [projectLoop, if_neg (by omega)]

/-- **C7.** `projectTo3D` applies `project` repeatedly, each step reducing the
dimension by exactly 1 (for inputs of dimension ≥ 2), until the result has
dimension 3; a 3-dimensional input is returned unchanged.  With an
orthographic config each step drops exactly the last coordinate, so
`orthographicProject((1,2,3,4)) = (1,2,3)` exactly and
`projectTo3D((1,2,3,4,5), orthographic) = (1,2,3)` exactly. -/
theorem claim_C7_projectTo3D (config : ProjectionConfig) :
    (∀ p : List ℚ, 2 ≤ p.length → (project p config).length = p.length - 1) ∧
    (∀ p : List ℚ, 3 ≤ p.length → (projectTo3D p config).length = 3) ∧
    (∀ p : List ℚ, p.length = 3 → projectTo3D p config = p) ∧
    (∀ p : List ℚ, orthographicProject p = p.take (p.length - 1)) ∧
    orthographicProject [1, 2, 3, 4] = [1, 2, 3] ∧
    projectTo3D [1, 2, 3, 4, 5] ⟨ProjectionType.orthographic, none, none⟩ = [1, 2, 3] := by
  refine ⟨fun p h => length_project p config h,
    fun p h => projectTo3D_length p config h,
    fun p h => projectTo3D_id_of_dim3 p config h,
    fun p => rfl, by with_unfolding_all rfl, by with_unfolding_all rfl⟩

/-- Witness for C7 at the 4-dimensional point `(1,2,3,4)` (one perspective
step at `viewDistance = 2`, plus loop identity at a 3-dimensional point). -/
theorem claim_C7_witness :
    (2 ≤ ([1, 2, 3, 4] : List ℚ).length ∧
      (project [1, 2, 3, 4] ⟨ProjectionType.perspective, none, none⟩).length = 3) ∧
    (([1, 2, 3] : List ℚ).length = 3 ∧
      projectTo3D [1, 2, 3] ⟨ProjectionType.perspective, none, none⟩ = [1, 2, 3]) :=
  ⟨⟨by simp, (claim_C7_projectTo3D ⟨ProjectionType.perspective, none, none⟩).1
      [1, 2, 3, 4] (by simp)⟩,
    ⟨by simp, (claim_C7_projectTo3D ⟨ProjectionType.perspective, none, none⟩).2.2.1
      [1, 2, 3] (by simp)⟩⟩

/-- **C10.** For every point of dimension `< 2`, `perspectiveProject` and
`stereographicProject` return the input unchanged (same dimension, same
components), for every `viewDistance`/`poleDistance`: the
dimension-reduction contract only applies to inputs of dimension ≥ 2. -/
theorem claim_C10_low_dim_projection (p : List ℚ) (vd pd : ℚ) (h : p.length < 2) :
    perspectiveProject p vd = p ∧ stereographicProject p pd = p := by
  constructor
  · rw [perspectiveProject]
    simp only []
    rw [if_pos h]
  · rw [stereographicProject]
    simp only []
    rw [if_pos h]

/-- Witness for C10 at the 1-dimensional point `(5)`. -/
theorem claim_C10_witness :
    ([(5 : ℚ)].length < 2) ∧ perspectiveProject [5] 7 = [5] ∧ stereographicProject [5] 2 = [5] :=
  ⟨by simp, (claim_C10_low_dim_projection [5] 7 2 (by simp)).1,
    (claim_C10_low_dim_projection [5] 7 2 (by simp)).2⟩

/-- **C9.** `normalize` on a vector whose magnitude is 0 returns the zero
vector of the same dimension — never a division by zero (`Math.sqrt(0) = 0`
is the only fact about the square root this needs).  `normalize` is total:
for every vector it either takes the zero branch or divides by the non-zero
magnitude. -/
theorem claim_C9_normalize_zero (sqrt : ℚ → ℚ) (hsqrt : sqrt 0 = 0) :
    (∀ v : List ℚ, VectorND.magnitudeSquared v = 0 →
        VectorND.normalize sqrt v = VectorND.zero v.length ∧
        (VectorND.normalize sqrt v).length = v.length) ∧
    (∀ v : List ℚ,
        VectorND.normalize sqrt v = VectorND.zero v.length ∨
        (VectorND.magnitude sqrt v ≠ 0 ∧
          VectorND.normalize sqrt v = VectorND.scale v (1 / VectorND.magnitude sqrt v))) := by
  constructor
  · intro v hv
    have hmag : VectorND.magnitude sqrt v = 0 := by
      rw [VectorND.magnitude, hv, hsqrt]
    constructor
    · rw [VectorND.normalize]
      simp [hmag]
    · rw [VectorND.normalize]
      simp [hmag, VectorND.zero]
  · intro v
    by_cases hmag : VectorND.magnitude sqrt v = 0
    · left
      rw [VectorND.normalize]
      simp [hmag]
    · right
      refine ⟨hmag, ?_⟩
      rw [VectorND.normalize]
      simp [hmag]

/-- Witness for C9: the square root function `id` (which satisfies
`sqrt 0 = 0`) on the 3-dimensional zero vector. -/
theorem claim_C9_witness :
    ((id : ℚ → ℚ) 0 = 0) ∧
    (VectorND.magnitudeSquared [0, 0, 0] = 0 ∧
      VectorND.normalize id [0, 0, 0] = VectorND.zero 3) :=
  ⟨rfl, by with_unfolding_all rfl,
    by
      have h := ((claim_C9_normalize_zero id rfl).1 [0, 0, 0]
        (by with_unfolding_all rfl)).1
      simpa using h⟩

/-! ## GeometryND and the polytope generators (src/core/geometry/polytopes.ts) -/

/-- `GeometryND`: name, ambient dimension, vertex list, edge list (index
pairs), face list (index tuples).  Generic in the scalar type so that the
600-cell can use exact ℚ(√5) coordinates. -/
structure GeometryND (α : Type) where
  name : String
  dimension : ℕ
  vertices : List (List α)
  edges : List (ℕ × ℕ)
  faces : List (List ℕ)

/-- The ubiquitous `for (i) for (j = i + 1) if (p) push([i, j])` loop shape
(hypercube/simplex/orthoplex/24-cell/600-cell edge generation). -/
def pairsLT (n : ℕ) (p : ℕ → ℕ → Bool) : List (ℕ × ℕ) :=
  (List.range n).flatMap (fun i =>
    ((List.range n).filter (fun j => decide (i < j) && p i j)).map (fun j => (i, j)))

/-- The `for (i) for (j = i + 1) for (k = j + 1) if (p) push([i, j, k])` loop
shape (simplex/24-cell/600-cell face generation). -/
def triplesLT (n : ℕ) (p : ℕ → ℕ → ℕ → Bool) : List (List ℕ) :=
  (List.range n).flatMap (fun i =>
    ((List.range n).filter (fun j => decide (i < j))).flatMap (fun j =>
      ((List.range n).filter (fun k => decide (j < k) && p i j k)).map (fun k => [i, j, k])))

/-- Two index pairs denote the same unordered edge. -/
def sameUnordered (e1 e2 : ℕ × ℕ) : Prop :=
  e1 = e2 ∨ (e1.1 = e2.2 ∧ e1.2 = e2.1)

instance (e1 e2 : ℕ × ℕ) : Decidable (sameUnordered e1 e2) := by
  unfold sameUnordered
  infer_instance

/-- The `GeometryND` invariants of the spec: edge/face indices in range,
every vertex of full dimension, no duplicate unordered edge and no
self-loop edge. -/
def geomInvariants {α : Type} (g : GeometryND α) : Prop :=
  (∀ e ∈ g.edges, e.1 < g.vertices.length ∧ e.2 < g.vertices.length) ∧
  (∀ f ∈ g.faces, ∀ ix ∈ f, ix < g.vertices.length) ∧
  (∀ v ∈ g.vertices, v.length = g.dimension) ∧
  g.edges.Pairwise (fun e1 e2 => ¬ sameUnordered e1 e2) ∧
  (∀ e ∈ g.edges, e.1 ≠ e.2)

theorem mem_pairsLT {n : ℕ} {p : ℕ → ℕ → Bool} {a b : ℕ} :
    (a, b) ∈ pairsLT n p ↔ a < b ∧ b < n ∧ p a b = true := by
  constructor
  · intro h
    simp only [pairsLT, List.mem_flatMap, List.mem_map, List.mem_filter,
      List.mem_range] at h
    obtain ⟨i, _, j, ⟨hj, hcond⟩, heq⟩ := h
    simp only [Bool.and_eq_true, decide_eq_true_eq] at hcond
    injection heq with h1 h2
    subst h1
    subst h2
    exact ⟨hcond.1, hj, hcond.2⟩
  · rintro ⟨hab, hbn, hp⟩
    simp only [pairsLT, List.mem_flatMap, List.mem_map, List.mem_filter, List.mem_range]
    exact ⟨a, lt_trans hab hbn, b, ⟨hbn, by simp [hab, hp]⟩, rfl⟩

theorem pairsLT_fst_lt_snd {n : ℕ} {p : ℕ → ℕ → Bool} :
    ∀ e ∈ pairsLT n p, e.1 < e.2 := by
  rintro ⟨a, b⟩ h
  exact (mem_pairsLT.mp h).1

theorem pairsLT_snd_lt {n : ℕ} {p : ℕ → ℕ → Bool} :
    ∀ e ∈ pairsLT n p, e.2 < n := by
  rintro ⟨a, b⟩ h
  exact (mem_pairsLT.mp h).2.1

theorem pairsLT_nodup (n : ℕ) (p : ℕ → ℕ → Bool) : (pairsLT n p).Nodup := by
  refine List.nodup_flatMap.mpr ⟨?_, ?_⟩
  · intro i _
    exact (((List.nodup_range n).filter _).map (fun j j' h => by
      simpa using congrArg Prod.snd h))
  · refine (List.nodup_range n).imp ?_
    intro i i' hne x hx hx'
    obtain ⟨j, _, rfl⟩ := List.mem_map.mp hx
    obtain ⟨j', _, heq⟩ := List.mem_map.mp hx'
    exact hne (congrArg Prod.fst heq).symm

/-- A duplicate-free list of strictly increasing index pairs satisfies the
"no duplicate unordered pair, no self-loop" edge invariant. -/
theorem edges_ok_of_lt_nodup (l : List (ℕ × ℕ)) (hlt : ∀ e ∈ l, e.1 < e.2)
    (hnd : l.Nodup) :
    l.Pairwise (fun e1 e2 => ¬ sameUnordered e1 e2) ∧ (∀ e ∈ l, e.1 ≠ e.2) := by
  constructor
  · refine hnd.imp_of_mem ?_
    intro a b ha hb hne hsame
    rcases hsame with heq | ⟨h1, h2⟩
    · exact hne heq
    · have ha' := hlt a ha
      have hb' := hlt b hb
      omega
  · intro e he
    exact Nat.ne_of_lt (hlt e he)

theorem pairsLT_edges_ok (n : ℕ) (p : ℕ → ℕ → Bool) :
    (pairsLT n p).Pairwise (fun e1 e2 => ¬ sameUnordered e1 e2) ∧
      (∀ e ∈ pairsLT n p, e.1 ≠ e.2) :=
  edges_ok_of_lt_nodup _ pairsLT_fst_lt_snd (pairsLT_nodup n p)

theorem pairsLT_bounds (n : ℕ) (p : ℕ → ℕ → Bool) :
    ∀ e ∈ pairsLT n p, e.1 < n ∧ e.2 < n := by
  intro e he
  have h1 := pairsLT_fst_lt_snd e he
  have h2 := pairsLT_snd_lt e he
  omega

theorem triplesLT_bound {n : ℕ} {p : ℕ → ℕ → ℕ → Bool} :
    ∀ f ∈ triplesLT n p, ∀ ix ∈ f, ix < n := by
  intro f hf
  simp only [triplesLT, List.mem_flatMap, List.mem_map, List.mem_filter,
    List.mem_range] at hf
  obtain ⟨i, hi, j, ⟨hj, _⟩, k, ⟨hk, _⟩, rfl⟩ := hf
  intro ix hix
  simp only [List.mem_cons, List.not_mem_nil, or_false] at hix
  rcases hix with rfl | rfl | rfl
  · exact hi
  · exact hj
  · exact hk

/-! ### createHypercube -/

/-- `createHypercube` vertices: vertex `i`'s coordinate `d` is `-size` when
bit `d` of `i` is 0 (`(i >> d) & 1`), else `+size`. -/
def hypercubeVertices (dimension : ℕ) (size : ℚ) : List (List ℚ) :=
  (List.range (2 ^ dimension)).map (fun i =>
    (List.range dimension).map (fun d => if (i >>> d) &&& 1 = 0 then -size else size))

/-- `createHypercube` edges: `(i, j)` with `j > i` when `i ^ j` has exactly
one set bit, tested as `(xor & (xor - 1)) === 0` (with `xor ≠ 0` forced by
`j > i`). -/
def hypercubeEdges (dimension : ℕ) : List (ℕ × ℕ) :=
  pairsLT (2 ^ dimension) (fun i j => decide ((i ^^^ j) &&& ((i ^^^ j) - 1) = 0))

/-- `createHypercube` faces: for each axis pair `(axis1, axis2)` and each sign
assignment `combo` of the remaining axes, the 4 corners obtained by setting
bit `axis1` on corners 1,2 and bit `axis2` on corners 2,3, plus the `combo`
bits on the remaining axes.  Empty when `dimension < 2`. -/
def hypercubeFaces (dimension : ℕ) : List (List ℕ) :=
  if 2 ≤ dimension then
    (List.range dimension).flatMap (fun axis1 =>
      ((List.range dimension).filter (fun axis2 => decide (axis1 < axis2))).flatMap
        (fun axis2 =>
          let otherAxes := (List.range dimension).filter
            (fun d => decide (d ≠ axis1 ∧ d ≠ axis2))
          (List.range (2 ^ otherAxes.length)).map (fun combo =>
            (List.range 4).map (fun corner =>
              let base1 : ℕ := if corner = 1 ∨ corner = 2 then 1 <<< axis1 else 0
              let base2 : ℕ := if corner = 2 ∨ corner = 3 then 1 <<< axis2 else 0
              (List.range otherAxes.length).foldl
                (fun acc k =>
                  if (combo >>> k) &&& 1 = 1 then acc ||| (1 <<< otherAxes.getD k 0)
                  else acc)
                (base1 ||| base2)))))
  else []

/-- `createHypercube(dimension, size = 1)`. -/
def createHypercube (dimension : ℕ) (size : ℚ) : GeometryND ℚ :=
  ⟨(["Point", "Segment", "Square", "Cube", "Tesseract", "5-cube", "6-cube",
      "7-cube"]).getD dimension (toString dimension ++ "-cube"),
    dimension, hypercubeVertices dimension size, hypercubeEdges dimension,
    hypercubeFaces dimension⟩

theorem hypercubeVertices_length (dimension : ℕ) (size : ℚ) :
    (hypercubeVertices dimension size).length = 2 ^ dimension := by
  simp [hypercubeVertices]

theorem hypercubeVertices_coord (dimension : ℕ) (size : ℚ) (i d : ℕ)
    (hi : i < 2 ^ dimension) (hd : d < dimension) :
    VectorND.get ((hypercubeVertices dimension size).getD i []) d =
      if (i >>> d) &&& 1 = 1 then size else -size := by
  rw [hypercubeVertices, getD_map_range _ _ _ i hi, VectorND.get,
    getD_map_range _ _ _ d hd]
  have hbit : (i >>> d) &&& 1 = (i >>> d) % 2 := Nat.and_one_is_mod _
  rcases Nat.mod_two_eq_zero_or_one (i >>> d) with h | h
  · rw [if_pos (by omega), if_neg (by omega)]
  · rw [if_neg (by omega), if_pos (by omega)]

theorem hypercubeEdges_mem_iff (dimension : ℕ) (hdim : dimension ≤ 6) (i j : ℕ) :
    (i, j) ∈ hypercubeEdges dimension ↔
      i < j ∧ j < 2 ^ dimension ∧ ∃ k < dimension, i ^^^ j = 2 ^ k := by
  rw [hypercubeEdges, mem_pairsLT]
  have hdec : ∀ x < 64, x ≠ 0 → ((x &&& (x - 1) = 0) ↔ ∃ k < 6, x = 2 ^ k) := by decide
  constructor
  · rintro ⟨hij, hj, hp⟩
    have hx : (i ^^^ j) &&& ((i ^^^ j) - 1) = 0 := of_decide_eq_true hp
    have hxne : i ^^^ j ≠ 0 := by
      intro h
      exact absurd (Nat.xor_eq_zero.mp h) (Nat.ne_of_lt hij)
    have hxlt : i ^^^ j < 2 ^ dimension :=
      Nat.xor_lt_two_pow (lt_trans hij hj) hj
    have hlt64 : i ^^^ j < 64 :=
      lt_of_lt_of_le hxlt (Nat.pow_le_pow_right (by norm_num) hdim)
    obtain ⟨k, _, hk⟩ := (hdec _ hlt64 hxne).mp hx
    have hkdim : k < dimension := by
      by_contra hcon
      push_neg at hcon
      have : (2 : ℕ) ^ dimension ≤ 2 ^ k := Nat.pow_le_pow_right (by norm_num) hcon
      omega
    exact ⟨hij, hj, k, hkdim, hk⟩
  · rintro ⟨hij, hj, k, hkdim, hk⟩
    refine ⟨hij, hj, decide_eq_true ?_⟩
    have hk6 : k < 6 := lt_of_lt_of_le hkdim hdim
    have hpow : ∀ k' < 6, (2 ^ k') &&& (2 ^ k' - 1) = 0 := by decide
    rw [hk]
    exact hpow k hk6

theorem foldl_or_bits_lt (dimension combo : ℕ) (axes : List ℕ)
    (haxes : ∀ a ∈ axes, a < dimension) (hdim : 0 < dimension) :
    ∀ (ks : List ℕ) (init : ℕ), init < 2 ^ dimension →
      ks.foldl
        (fun acc k =>
          if (combo >>> k) &&& 1 = 1 then acc ||| (1 <<< axes.getD k 0) else acc)
        init < 2 ^ dimension := by
  intro ks
  induction ks with
  | nil => intro init h; exact h
  | cons k ks ih =>
      intro init h
      rw [List.foldl_cons]
      by_cases hc : (combo >>> k) &&& 1 = 1
      · rw [if_pos hc]
        refine ih _ (Nat.or_lt_two_pow h ?_)
        rw [Nat.one_shiftLeft]
        have : axes.getD k 0 < dimension := by
          rcases lt_or_le k axes.length with hk | hk
          · rw [List.getD_eq_getElem _ _ hk]
            exact haxes _ (List.getElem_mem hk)
          · rw [List.getD_eq_default _ _ hk]
            exact hdim
        exact Nat.pow_lt_pow_right (by norm_num) this
      · rw [if_neg hc]
        exact ih _ h

theorem hypercubeFaces_bound (dimension : ℕ) :
    ∀ f ∈ hypercubeFaces dimension, ∀ ix ∈ f, ix < 2 ^ dimension := by
  intro f hf ix hix
  rw [hypercubeFaces] at hf
  by_cases h2 : 2 ≤ dimension
  · rw [if_pos h2] at hf
    simp only [List.mem_flatMap, List.mem_map, List.mem_filter, List.mem_range] at hf
    obtain ⟨axis1, h1, axis2, ⟨h2', _⟩, combo, _, rfl⟩ := hf
    simp only [List.mem_map, List.mem_range] at hix
    obtain ⟨corner, _, rfl⟩ := hix
    have hpow : ∀ a < dimension, (1 <<< a) < 2 ^ dimension := by
      intro a ha
      rw [Nat.one_shiftLeft]
      exact Nat.pow_lt_pow_right (by norm_num) ha
    have hbase1 : (if corner = 1 ∨ corner = 2 then 1 <<< axis1 else 0) < 2 ^ dimension := by
      by_cases hc : corner = 1 ∨ corner = 2
      · rw [if_pos hc]; exact hpow _ h1
      · rw [if_neg hc]; exact Nat.pos_pow_of_pos _ (by norm_num)
    have hbase2 : (if corner = 2 ∨ corner = 3 then 1 <<< axis2 else 0) < 2 ^ dimension := by
      by_cases hc : corner = 2 ∨ corner = 3
      · rw [if_pos hc]; exact hpow _ h2'
      · rw [if_neg hc]; exact Nat.pos_pow_of_pos _ (by norm_num)
    refine foldl_or_bits_lt dimension combo _ ?_ (by omega) _ _
      (Nat.or_lt_two_pow hbase1 hbase2)
    intro a ha
    exact List.mem_range.mp (List.mem_filter.mp ha).1
  · rw [if_neg h2] at hf
    exact absurd hf (List.not_mem_nil f)

/-- **C4.** For `2 ≤ dim ≤ 6` and every `size`: `createHypercube(dim, size)`
has exactly `2^dim` vertices; vertex `i`'s coordinate `d` is `+size` when bit
`d` of `i` is 1 and `-size` otherwise; the edge list contains `(i, j)` with
`i < j` iff `i XOR j` has exactly one set bit (equivalently is a power of 2
below `2^dim`); and the edge list has exactly `dim·2^(dim-1)` entries. -/
theorem claim_C4_hypercube (dimension : ℕ) (size : ℚ)
    (h2 : 2 ≤ dimension) (h6 : dimension ≤ 6) :
    (createHypercube dimension size).vertices.length = 2 ^ dimension ∧
    (∀ i < 2 ^ dimension, ∀ d < dimension,
        VectorND.get ((createHypercube dimension size).vertices.getD i []) d =
          if (i >>> d) &&& 1 = 1 then size else -size) ∧
    (∀ i j, (i, j) ∈ (createHypercube dimension size).edges ↔
        i < j ∧ j < 2 ^ dimension ∧ ∃ k < dimension, i ^^^ j = 2 ^ k) ∧
    (createHypercube dimension size).edges.length = dimension * 2 ^ (dimension - 1) := by
  refine ⟨hypercubeVertices_length dimension size,
    fun i hi d hd => hypercubeVertices_coord dimension size i d hi hd,
    fun i j => hypercubeEdges_mem_iff dimension h6 i j, ?_⟩
  show (hypercubeEdges dimension).length = dimension * 2 ^ (dimension - 1)
  interval_cases dimension
  · decide
  · decide
  · decide
  · decide
  · decide

/-- Witness for C4 at the tesseract (`dim = 4`, `size = 1`). -/
theorem claim_C4_witness :
    (2 ≤ 4 ∧ 4 ≤ 6) ∧
    ((createHypercube 4 1).vertices.length = 2 ^ 4 ∧
      (createHypercube 4 1).edges.length = 4 * 2 ^ 3) :=
  ⟨⟨by norm_num, by norm_num⟩,
    (claim_C4_hypercube 4 1 (by norm_num) (by norm_num)).1,
    (claim_C4_hypercube 4 1 (by norm_num) (by norm_num)).2.2.2⟩

/-! Length bookkeeping helpers shared by the generators. -/

theorem VectorND.length_scale (v : List ℚ) (k : ℚ) :
    (VectorND.scale v k).length = v.length := by
  simp [VectorND.scale]

theorem VectorND.length_zero (n : ℕ) : (VectorND.zero n).length = n := by
  simp [VectorND.zero]

theorem VectorND.foldl_add_length (l : List (List ℚ)) (acc : List ℚ) (n : ℕ)
    (hacc : acc.length = n) (hl : ∀ v ∈ l, v.length = n) :
    (l.foldl VectorND.add acc).length = n := by
  induction l generalizing acc with
  | nil => exact hacc
  | cons v l ih =>
      rw [List.foldl_cons]
      refine ih _ ?_ (fun w hw => hl w (List.mem_cons_of_mem v hw))
      rw [VectorND.length_add, hacc, hl v (List.mem_cons_self v l)]
      exact max_self n

theorem length_flatMap_const {α β : Type} (l : List α) (f : α → List β) (k : ℕ)
    (h : ∀ a ∈ l, (f a).length = k) : (l.flatMap f).length = l.length * k := by
  induction l with
  | nil => simp
  | cons a l ih =>
      rw [List.flatMap_cons, List.length_append, h a (List.mem_cons_self a l),
        ih (fun a' h' => h a' (List.mem_cons_of_mem a h')), List.length_cons]
      ring

/-! ### createSimplex -/

/-- `createSimplex` unscaled vertex `i`: coordinate `d < dimension` is
`-1/√((d+1)(d+2))` for `d < i`, `√((d+1)/(d+2))` for `d = i`, else 0, then
`.scale(size)`.  (The source's `d === i && d < dimension` is tested with `d`
already ranging below `dimension`.)  The square-root function is an abstract
parameter. -/
def simplexBaseVertices (dimension : ℕ) (size : ℚ) (sqrt : ℚ → ℚ) : List (List ℚ) :=
  (List.range (dimension + 1)).map (fun (i : ℕ) =>
    VectorND.scale ((List.range dimension).map (fun (d : ℕ) =>
      if d < i then -1 / sqrt (((d : ℚ) + 1) * ((d : ℚ) + 2))
      else if d = i then sqrt (((d : ℚ) + 1) / ((d : ℚ) + 2))
      else 0)) size)

/-- The centroid of the base vertices:
`vertices.reduce((acc, v) => acc.add(v), zero).scale(1 / vertices.length)`. -/
def simplexCenter (dimension : ℕ) (size : ℚ) (sqrt : ℚ → ℚ) : List ℚ :=
  VectorND.scale
    ((simplexBaseVertices dimension size sqrt).foldl VectorND.add (VectorND.zero dimension))
    (1 / (((simplexBaseVertices dimension size sqrt).length : ℚ)))

/-- The base vertices re-centred at the centroid. -/
def simplexCenteredVertices (dimension : ℕ) (size : ℚ) (sqrt : ℚ → ℚ) : List (List ℚ) :=
  (simplexBaseVertices dimension size sqrt).map
    (fun v => VectorND.subtract v (simplexCenter dimension size sqrt))

/-- `Math.max(...magnitudes)` over the (always non-empty) centred vertex
list. -/
def simplexMaxDist (dimension : ℕ) (size : ℚ) (sqrt : ℚ → ℚ) : ℚ :=
  match (simplexCenteredVertices dimension size sqrt).map (VectorND.magnitude sqrt) with
  | [] => 0
  | x :: xs => xs.foldl max x

/-- The centred vertices rescaled by `size / maxDist`. -/
def simplexVertices (dimension : ℕ) (size : ℚ) (sqrt : ℚ → ℚ) : List (List ℚ) :=
  (simplexCenteredVertices dimension size sqrt).map
    (fun v => VectorND.scale v (size / simplexMaxDist dimension size sqrt))

/-- `createSimplex(dimension, size = 1)`: base vertices, re-centred at their
centroid, rescaled so the largest centroid distance is `size` (`Math.max`
over a non-empty list); complete-graph edges, all-triangle faces. -/
def createSimplex (dimension : ℕ) (size : ℚ) (sqrt : ℚ → ℚ) : GeometryND ℚ :=
  ⟨(["Point", "Segment", "Triangle", "Tetrahedron", "5-cell", "5-simplex",
      "6-simplex"]).getD dimension (toString dimension ++ "-simplex"),
    dimension, simplexVertices dimension size sqrt,
    pairsLT (dimension + 1) (fun _ _ => true),
    triplesLT (dimension + 1) (fun _ _ _ => true)⟩

theorem simplexBaseVertices_length (dimension : ℕ) (size : ℚ) (sqrt : ℚ → ℚ) :
    (simplexBaseVertices dimension size sqrt).length = dimension + 1 := by
  rw [simplexBaseVertices, List.length_map, List.length_range]

theorem simplexBaseVertices_dim (dimension : ℕ) (size : ℚ) (sqrt : ℚ → ℚ) :
    ∀ v ∈ simplexBaseVertices dimension size sqrt, v.length = dimension := by
  intro v hv
  simp only [simplexBaseVertices, List.mem_map, List.mem_range] at hv
  obtain ⟨i, _, rfl⟩ := hv
  rw [VectorND.length_scale, List.length_map, List.length_range]

theorem simplexVertices_length (dimension : ℕ) (size : ℚ) (sqrt : ℚ → ℚ) :
    (simplexVertices dimension size sqrt).length = dimension + 1 := by
  rw [simplexVertices, List.length_map, simplexCenteredVertices, List.length_map,
    simplexBaseVertices_length]

theorem simplexVertices_dim (dimension : ℕ) (size : ℚ) (sqrt : ℚ → ℚ) :
    ∀ v ∈ simplexVertices dimension size sqrt, v.length = dimension := by
  intro v hv
  rw [simplexVertices] at hv
  obtain ⟨w, hw, rfl⟩ := List.mem_map.mp hv
  rw [simplexCenteredVertices] at hw
  obtain ⟨u, hu, rfl⟩ := List.mem_map.mp hw
  rw [VectorND.length_scale, VectorND.length_subtract, simplexCenter,
    VectorND.length_scale,
    VectorND.foldl_add_length _ _ dimension (VectorND.length_zero dimension)
      (simplexBaseVertices_dim dimension size sqrt),
    simplexBaseVertices_dim dimension size sqrt u hu]
  exact max_self dimension

/-! ### createOrthoplex -/

/-- `createOrthoplex` vertices: for each axis `d`, the `+size` vertex then the
`-size` vertex. -/
def orthoplexVertices (dimension : ℕ) (size : ℚ) : List (List ℚ) :=
  (List.range dimension).flatMap (fun d =>
    [(List.range dimension).map (fun m => if m = d then size else 0),
     (List.range dimension).map (fun m => if m = d then -size else 0)])

/-- `createOrthoplex` edges: all pairs `(i, j)`, `i < j`, not on the same
axis (`Math.floor(i/2) !== Math.floor(j/2)`). -/
def orthoplexEdges (dimension : ℕ) : List (ℕ × ℕ) :=
  pairsLT (2 * dimension) (fun i j => decide (i / 2 ≠ j / 2))

/-- `createOrthoplex` faces: for each axis triple `a1 < a2 < a3` and each of
the 8 sign combinations, the triangle `[2·a1+s1, 2·a2+s2, 2·a3+s3]`. -/
def orthoplexFaces (dimension : ℕ) : List (List ℕ) :=
  (List.range dimension).flatMap (fun a1 =>
    ((List.range dimension).filter (fun a2 => decide (a1 < a2))).flatMap (fun a2 =>
      ((List.range dimension).filter (fun a3 => decide (a2 < a3))).flatMap (fun a3 =>
        (List.range 2).flatMap (fun s1 =>
          (List.range 2).flatMap (fun s2 =>
            (List.range 2).map (fun s3 => [a1 * 2 + s1, a2 * 2 + s2, a3 * 2 + s3]))))))

/-- `createOrthoplex(dimension, size = 1)`. -/
def createOrthoplex (dimension : ℕ) (size : ℚ) : GeometryND ℚ :=
  ⟨(["Point", "Segment", "Square", "Octahedron", "16-cell",
      "5-orthoplex"]).getD dimension (toString dimension ++ "-orthoplex"),
    dimension, orthoplexVertices dimension size, orthoplexEdges dimension,
    orthoplexFaces dimension⟩

theorem orthoplexVertices_length (dimension : ℕ) (size : ℚ) :
    (orthoplexVertices dimension size).length = 2 * dimension := by
  rw [orthoplexVertices, length_flatMap_const _ _ 2 (by intro a _; rfl),
    List.length_range]
  ring

theorem orthoplexVertices_dim (dimension : ℕ) (size : ℚ) :
    ∀ v ∈ orthoplexVertices dimension size, v.length = dimension := by
  intro v hv
  simp only [orthoplexVertices, List.mem_flatMap, List.mem_cons, List.not_mem_nil,
    or_false] at hv
  obtain ⟨d, _, rfl | rfl⟩ := hv <;> simp

theorem orthoplexFaces_bound (dimension : ℕ) :
    ∀ f ∈ orthoplexFaces dimension, ∀ ix ∈ f, ix < 2 * dimension := by
  intro f hf ix hix
  simp only [orthoplexFaces, List.mem_flatMap, List.mem_map, List.mem_filter,
    List.mem_range] at hf
  obtain ⟨a1, h1, a2, ⟨h2, _⟩, a3, ⟨h3, _⟩, s1, hs1, s2, hs2, s3, hs3, rfl⟩ := hf
  simp only [List.mem_cons, List.not_mem_nil, or_false] at hix
  rcases hix with rfl | rfl | rfl <;> omega

/-! ### create24Cell -/

/-- The 8 "axis" vertices `±size` on each of the 4 axes — the `-1` sign is
pushed before `+1`, as in the source's `for (const sign of [-1, 1])` loop. -/
def axisVertices4 (size : ℚ) : List (List ℚ) :=
  (List.range 4).flatMap (fun d =>
    [(-1 : ℚ), 1].map (fun sign =>
      (List.range 4).map (fun m => if m = d then sign * size else 0)))

/-- `create24Cell`'s 16 "half" vertices: every sign combination of
`(±0.5·size, ±0.5·size, ±0.5·size, ±0.5·size)`, scaled by 2 (`1/2 = 0.5`). -/
def halfVertices4 (size : ℚ) : List (List ℚ) :=
  (List.range 16).map (fun i =>
    VectorND.scale ((List.range 4).map (fun d =>
      if (i >>> d) &&& 1 = 0 then -(1/2 * size) else 1/2 * size)) 2)

def create24CellVertices (size : ℚ) : List (List ℚ) :=
  axisVertices4 size ++ halfVertices4 size

/-- The distance-tolerance edge test shared by `create24Cell` and (in its
Q5 form) `create600Cell`: squared distance of vertices `i`, `j` within
`tolerance` of `edgeLengthSq`. -/
def edgeTolerancePred (vertices : List (List ℚ)) (edgeLengthSq tolerance : ℚ)
    (i j : ℕ) : Bool :=
  decide (|VectorND.magnitudeSquared
      (VectorND.subtract (vertices.getD i []) (vertices.getD j [])) - edgeLengthSq|
    < tolerance)

/-- `create24Cell` edges: all pairs whose squared distance is within
`0.01·size²` of `2·size²` (`1/100 = 0.01`). -/
def create24CellEdges (size : ℚ) : List (ℕ × ℕ) :=
  pairsLT (create24CellVertices size).length
    (edgeTolerancePred (create24CellVertices size) (2 * size * size) (1/100 * size * size))

/-- `create24Cell` faces: triangle closure over the edge set.  The source
looks pairs up in a set keyed by `min-max` strings; since the edge list
stores `i < j` and the queries run over `i < j < k`, that is plain edge-list
membership. -/
def create24CellFaces (size : ℚ) : List (List ℕ) :=
  triplesLT (create24CellVertices size).length (fun i j k =>
    decide ((i, j) ∈ create24CellEdges size) &&
      decide ((i, k) ∈ create24CellEdges size) &&
      decide ((j, k) ∈ create24CellEdges size))

/-- `create24Cell(size = 1)`. -/
def create24Cell (size : ℚ) : GeometryND ℚ :=
  ⟨"24-cell", 4, create24CellVertices size, create24CellEdges size,
    create24CellFaces size⟩

theorem create24CellVertices_dim (size : ℚ) :
    ∀ v ∈ create24CellVertices size, v.length = 4 := by
  intro v hv
  rcases List.mem_append.mp hv with h | h
  · simp only [axisVertices4, List.mem_flatMap, List.mem_map, List.mem_cons,
      List.not_mem_nil, or_false] at h
    obtain ⟨d, _, sign, _, rfl⟩ := h
    simp
  · simp only [halfVertices4, List.mem_map, List.mem_range] at h
    obtain ⟨i, _, rfl⟩ := h
    rw [VectorND.length_scale]
    simp

/-! Per-generator invariant bundles (hypercube, simplex, orthoplex, 24-cell). -/

theorem createHypercube_invariants (dimension : ℕ) (size : ℚ) :
    geomInvariants (createHypercube dimension size) := by
  have hlen : (createHypercube dimension size).vertices.length = 2 ^ dimension :=
    hypercubeVertices_length dimension size
  refine ⟨?_, ?_, ?_, ?_, ?_⟩
  · intro e he
    rw [hlen]
    exact pairsLT_bounds _ _ e he
  · intro f hf ix hix
    rw [hlen]
    exact hypercubeFaces_bound dimension f hf ix hix
  · intro v hv
    simp only [createHypercube, hypercubeVertices, List.mem_map, List.mem_range] at hv
    obtain ⟨i, _, rfl⟩ := hv
    simp [createHypercube]
  · exact (pairsLT_edges_ok _ _).1
  · exact (pairsLT_edges_ok _ _).2

theorem createSimplex_invariants (dimension : ℕ) (size : ℚ) (sqrt : ℚ → ℚ) :
    geomInvariants (createSimplex dimension size sqrt) := by
  have hlen : (createSimplex dimension size sqrt).vertices.length = dimension + 1 :=
    simplexVertices_length dimension size sqrt
  refine ⟨?_, ?_, ?_, ?_, ?_⟩
  · intro e he
    rw [hlen]
    exact pairsLT_bounds _ _ e he
  · intro f hf ix hix
    rw [hlen]
    exact triplesLT_bound f hf ix hix
  · exact simplexVertices_dim dimension size sqrt
  · exact (pairsLT_edges_ok _ _).1
  · exact (pairsLT_edges_ok _ _).2

theorem createOrthoplex_invariants (dimension : ℕ) (size : ℚ) :
    geomInvariants (createOrthoplex dimension size) := by
  have hlen : (createOrthoplex dimension size).vertices.length = 2 * dimension :=
    orthoplexVertices_length dimension size
  refine ⟨?_, ?_, ?_, ?_, ?_⟩
  · intro e he
    rw [hlen]
    exact pairsLT_bounds _ _ e he
  · intro f hf ix hix
    rw [hlen]
    exact orthoplexFaces_bound dimension f hf ix hix
  · exact orthoplexVertices_dim dimension size
  · exact (pairsLT_edges_ok _ _).1
  · exact (pairsLT_edges_ok _ _).2

theorem create24Cell_invariants (size : ℚ) :
    geomInvariants (create24Cell size) := by
  refine ⟨?_, ?_, ?_, ?_, ?_⟩
  · intro e he
    exact pairsLT_bounds (create24CellVertices size).length _ e he
  · intro f hf ix hix
    exact triplesLT_bound f hf ix hix
  · exact create24CellVertices_dim size
  · exact (pairsLT_edges_ok _ _).1
  · exact (pairsLT_edges_ok _ _).2

/-! ### The field ℚ(√5) and create600Cell

The 600-cell's coordinates are rational combinations of the golden ratio
`φ = (1 + √5)/2`, so its construction is evaluated exactly over
`Q5 = {a + b√5 : a, b ∈ ℚ}`. -/

/-- `a + b·√5` with `a`, `b` rational. -/
@[ext]
structure Q5 where
  a : ℚ
  b : ℚ
deriving DecidableEq

namespace Q5

def add (x y : Q5) : Q5 := ⟨x.a + y.a, x.b + y.b⟩

def neg (x : Q5) : Q5 := ⟨-x.a, -x.b⟩

def mul (x y : Q5) : Q5 := ⟨x.a * y.a + 5 * x.b * y.b, x.a * y.b + x.b * y.a⟩

instance : Zero Q5 := ⟨⟨0, 0⟩⟩

instance : One Q5 := ⟨⟨1, 0⟩⟩

instance : Add Q5 := ⟨Q5.add⟩

instance : Neg Q5 := ⟨Q5.neg⟩

instance : Mul Q5 := ⟨Q5.mul⟩

theorem add_def (x y : Q5) : x + y = ⟨x.a + y.a, x.b + y.b⟩ := rfl

theorem neg_def (x : Q5) : -x = ⟨-x.a, -x.b⟩ := rfl

theorem mul_def (x y : Q5) : x * y = ⟨x.a * y.a + 5 * x.b * y.b, x.a * y.b + x.b * y.a⟩ := rfl

theorem zero_def : (0 : Q5) = ⟨0, 0⟩ := rfl

theorem one_def : (1 : Q5) = ⟨1, 0⟩ := rfl

instance : CommRing Q5 where
  add_assoc x y z := by ext <;> simp [add_def] <;> ring
  zero_add x := by ext <;> simp [add_def, zero_def]
  add_zero x := by ext <;> simp [add_def, zero_def]
  add_comm x y := by ext <;> simp [add_def] <;> ring
  left_distrib x y z := by ext <;> simp [add_def, mul_def] <;> ring
  right_distrib x y z := by ext <;> simp [add_def, mul_def] <;> ring
  zero_mul x := by ext <;> simp [mul_def, zero_def]
  mul_zero x := by ext <;> simp [mul_def, zero_def]
  mul_assoc x y z := by ext <;> simp [mul_def] <;> ring
  one_mul x := by ext <;> simp [mul_def, one_def]
  mul_one x := by ext <;> simp [mul_def, one_def]
  neg_add_cancel x := by ext <;> simp [add_def, neg_def, zero_def]
  mul_comm x y := by ext <;> simp [mul_def] <;> ring
  nsmul := nsmulRec
  zsmul := zsmulRec

/-- The exact field inverse `1/(a + b√5) = (a − b√5)/(a² − 5b²)` (correct
whenever the argument is non-zero, since `√5` is irrational; the source only
inverts `2φ`). -/
instance : Inv Q5 :=
  ⟨fun x => ⟨x.a / (x.a ^ 2 - 5 * x.b ^ 2), -x.b / (x.a ^ 2 - 5 * x.b ^ 2)⟩⟩

instance : Div Q5 := ⟨fun x y => x * y⁻¹⟩

/-- The embedding of a JavaScript number (a rational in this model). -/
def ofRat (q : ℚ) : Q5 := ⟨q, 0⟩

/-- Whether `a + b√5 > 0` in ℝ, decided by rational sign analysis. -/
def posB (x : Q5) : Bool :=
  if 0 ≤ x.a then
    if 0 ≤ x.b then decide (0 < x.a ∨ 0 < x.b)
    else decide (5 * x.b ^ 2 < x.a ^ 2)
  else
    if 0 ≤ x.b then decide (x.a ^ 2 < 5 * x.b ^ 2)
    else false

/-- `|x| < t` over the reals, decided in ℚ(√5): `0 < t - x ∧ 0 < t + x`. -/
def absLtB (x t : Q5) : Bool := posB (t - x) && posB (t + x)

/-- `VectorND.get` over Q5 coordinates. -/
def vget (v : List Q5) (i : ℕ) : Q5 := v.getD i 0

/-- `VectorND.subtract` over Q5 coordinates. -/
def vsubtract (u v : List Q5) : List Q5 :=
  (List.range (max u.length v.length)).map (fun i => vget u i - vget v i)

/-- `VectorND.dot` over Q5 coordinates. -/
def vdot (u v : List Q5) : Q5 :=
  ((List.range (min u.length v.length)).map (fun i => vget u i * vget v i)).sum

/-- `VectorND.magnitudeSquared` over Q5 coordinates. -/
def vmagnitudeSquared (v : List Q5) : Q5 := vdot v v

end Q5

/-- The golden ratio `φ = (1 + √5)/2`, computed by the source as
`(1 + Math.sqrt(5)) / 2`. -/
def phi5 : Q5 := ⟨1/2, 1/2⟩

/-- `create600Cell`'s first 8 vertices: `±size` on each of the 4 axes
(` -1` pushed before `+1`). -/
def create600CellAxisVertices (size : ℚ) : List (List Q5) :=
  (List.range 4).flatMap (fun d =>
    [(-1 : Q5), 1].map (fun sign =>
      (List.range 4).map (fun m => if m = d then sign * Q5.ofRat size else 0)))

/-- `create600Cell`'s next 16 vertices: all sign combinations of
`(±0.5·size, ±0.5·size, ±0.5·size, ±0.5·size)` (not rescaled, unlike the
24-cell's half vertices). -/
def create600CellHalfVertices (size : ℚ) : List (List Q5) :=
  (List.range 16).map (fun i =>
    (List.range 4).map (fun d =>
      if (i >>> d) &&& 1 = 0 then Q5.ofRat (-(1/2 * size)) else Q5.ofRat (1/2 * size)))

/-- The value table `[φ/2·size, 0.5·size, 1/(2φ)·size, 0]`. -/
def sixHundredValues (size : ℚ) : List Q5 :=
  [phi5 / 2 * Q5.ofRat size, Q5.ofRat (1/2 * size), 1 / (2 * phi5) * Q5.ofRat size, 0]

/-- The 12 even permutations of the 4 coordinate slots, as in the source. -/
def sixHundredPermutations : List (List ℕ) :=
  [[0, 1, 2, 3], [0, 2, 3, 1], [0, 3, 1, 2],
   [1, 0, 3, 2], [1, 2, 0, 3], [1, 3, 2, 0],
   [2, 0, 1, 3], [2, 1, 3, 0], [2, 3, 0, 1],
   [3, 0, 2, 1], [3, 1, 0, 2], [3, 2, 1, 0]]

/-- `coords[i] = values[perm[i]] * sign`, where bit `i` of `signs` selects
the sign.  Note that `signs` ranges over `0..7` in the source, so bit 3 —
the sign of coordinate 3 — is always 0 (positive). -/
def sixHundredCoords (size : ℚ) (perm : List ℕ) (signs : ℕ) : List Q5 :=
  (List.range 4).map (fun (i : ℕ) =>
    (sixHundredValues size).getD (perm.getD i 0) 0 *
      (if (signs >>> i) &&& 1 = 0 then (1 : Q5) else -1))

/-- The 96 candidate vertices from the even permutations: for each
permutation and each `signs < 8`, push the coordinate vector unless it is
all-zero (`coords.some(c => c !== 0)`). -/
def create600CellPermVertices (size : ℚ) : List (List Q5) :=
  sixHundredPermutations.flatMap (fun perm =>
    (List.range 8).flatMap (fun signs =>
      if (sixHundredCoords size perm signs).any (fun c => decide (c ≠ 0))
      then [sixHundredCoords size perm signs] else []))

/-- The duplicate-removal pass: keep the first occurrence of each vertex.
The source keys vertices on their coordinates rounded to 6 decimal places
(`toFixed(6)`); at the sizes the claims evaluate (`size = 1`) the distinct
coordinate values generated differ by far more than `10⁻⁶`, so rounding to 6
decimals separates exactly the exactly-distinct vertices and the embedding
dedups on exact `Q5` equality. -/
def dedupVertices (l : List (List Q5)) : List (List Q5) :=
  l.foldl (fun acc v => if v ∈ acc then acc else acc ++ [v]) []

/-- `create600Cell`'s vertex list: axis ∪ half ∪ permutation vertices,
de-duplicated. -/
def create600CellVertices (size : ℚ) : List (List Q5) :=
  dedupVertices (create600CellAxisVertices size ++ create600CellHalfVertices size ++
    create600CellPermVertices size)

/-- `create600Cell` edges: pairs within `0.01·size²` of
`edgeLengthSq = (size/φ)²`. -/
def create600CellEdges (size : ℚ) : List (ℕ × ℕ) :=
  pairsLT (create600CellVertices size).length (fun i j =>
    Q5.absLtB
      (Q5.vmagnitudeSquared (Q5.vsubtract ((create600CellVertices size).getD i [])
          ((create600CellVertices size).getD j [])) -
        (Q5.ofRat size / phi5) * (Q5.ofRat size / phi5))
      (Q5.ofRat (1/100 * size * size)))

/-- `create600Cell` faces: triangle closure over the edge set (the source's
`continue` on a missing `i-j` edge skips exactly the triples this predicate
rejects). -/
def create600CellFaces (size : ℚ) : List (List ℕ) :=
  triplesLT (create600CellVertices size).length (fun i j k =>
    decide ((i, j) ∈ create600CellEdges size) &&
      decide ((i, k) ∈ create600CellEdges size) &&
      decide ((j, k) ∈ create600CellEdges size))

/-- `create600Cell(size = 1)`. -/
def create600Cell (size : ℚ) : GeometryND Q5 :=
  ⟨"600-cell", 4, create600CellVertices size, create600CellEdges size,
    create600CellFaces size⟩

/-! ### createCliffordTorus and createDuocylinder

Both place a `majorSegments × minorSegments` toroidal grid of vertices and
use identical edge/face loops (`idx`, `idxRight`, `idxDown`, `idxDiag`); the
loops are captured once.  Vertex `(i, j)` has the flat index
`i * minorSegments + j`. -/

/-- The toroidal grid edges: each cell contributes `[idx, idxRight]` and
`[idx, idxDown]`, where `idxRight` wraps `j` and `idxDown` wraps `i`. -/
def gridEdges (majorSegments minorSegments : ℕ) : List (ℕ × ℕ) :=
  (List.range majorSegments).flatMap (fun i =>
    (List.range minorSegments).flatMap (fun j =>
      [(i * minorSegments + j, i * minorSegments + (j + 1) % minorSegments),
       (i * minorSegments + j, ((i + 1) % majorSegments) * minorSegments + j)]))

/-- The toroidal grid faces: each cell contributes the two triangles
`[idx, idxRight, idxDiag]` and `[idx, idxDiag, idxDown]`. -/
def gridFaces (majorSegments minorSegments : ℕ) : List (List ℕ) :=
  (List.range majorSegments).flatMap (fun i =>
    (List.range minorSegments).flatMap (fun j =>
      [[i * minorSegments + j, i * minorSegments + (j + 1) % minorSegments,
        ((i + 1) % majorSegments) * minorSegments + (j + 1) % minorSegments],
       [i * minorSegments + j,
        ((i + 1) % majorSegments) * minorSegments + (j + 1) % minorSegments,
        ((i + 1) % majorSegments) * minorSegments + j]]))

/-- `createCliffordTorus` vertices:
`(r·cos θ, r·sin θ, r·cos φ, r·sin φ)` with `r = size/√2`, `θ = 2π·i/major`,
`φ = 2π·j/minor`.  Angles are represented by their fraction of a full turn
(`i/major`, `j/minor`): `cos`/`sin` are abstract functions of a turn. -/
def cliffordTorusVertices (cos sin sqrt : ℚ → ℚ) (majorSegments minorSegments : ℕ)
    (size : ℚ) : List (List ℚ) :=
  (List.range majorSegments).flatMap (fun (i : ℕ) =>
    (List.range minorSegments).map (fun (j : ℕ) =>
      [size / sqrt 2 * cos ((i : ℚ) / majorSegments),
       size / sqrt 2 * sin ((i : ℚ) / majorSegments),
       size / sqrt 2 * cos ((j : ℚ) / minorSegments),
       size / sqrt 2 * sin ((j : ℚ) / minorSegments)]))

/-- `createCliffordTorus(majorSegments = 16, minorSegments = 16, size = 1)`. -/
def createCliffordTorus (cos sin sqrt : ℚ → ℚ) (majorSegments minorSegments : ℕ)
    (size : ℚ) : GeometryND ℚ :=
  ⟨"Clifford Torus", 4,
    cliffordTorusVertices cos sin sqrt majorSegments minorSegments size,
    gridEdges majorSegments minorSegments, gridFaces majorSegments minorSegments⟩

/-- `createDuocylinder` vertices: the same grid with radius `size` on both
circle pairs. -/
def duocylinderVertices (cos sin : ℚ → ℚ) (segments : ℕ) (size : ℚ) :
    List (List ℚ) :=
  (List.range segments).flatMap (fun (i : ℕ) =>
    (List.range segments).map (fun (j : ℕ) =>
      [size * cos ((i : ℚ) / segments), size * sin ((i : ℚ) / segments),
       size * cos ((j : ℚ) / segments), size * sin ((j : ℚ) / segments)]))

/-- `createDuocylinder(segments = 20, size = 1)`. -/
def createDuocylinder (cos sin : ℚ → ℚ) (segments : ℕ) (size : ℚ) : GeometryND ℚ :=
  ⟨"Duocylinder", 4, duocylinderVertices cos sin segments size,
    gridEdges segments segments, gridFaces segments segments⟩

/-! Grid index arithmetic. -/

theorem grid_idx_mod (i j m : ℕ) (hj : j < m) : (i * m + j) % m = j := by
  rw [mul_comm, Nat.mul_add_mod, Nat.mod_eq_of_lt hj]

theorem grid_idx_div (i j m : ℕ) (hj : j < m) : (i * m + j) / m = i := by
  rw [mul_comm, Nat.mul_add_div (by omega), Nat.div_eq_of_lt hj, Nat.add_zero]

theorem grid_idx_inj {m i j i' j' : ℕ} (hj : j < m) (hj' : j' < m)
    (h : i * m + j = i' * m + j') : i = i' ∧ j = j' := by
  have hjq : j = j' := by
    have := congrArg (fun x => x % m) h
    simpa [grid_idx_mod i j m hj, grid_idx_mod i' j' m hj'] using this
  subst hjq
  exact ⟨Nat.eq_of_mul_eq_mul_right (by omega) (Nat.add_right_cancel h), rfl⟩

theorem grid_idx_lt {M m i j : ℕ} (hi : i < M) (hj : j < m) : i * m + j < M * m := by
  calc i * m + j < i * m + m := by omega
  _ = (i + 1) * m := by ring
  _ ≤ M * m := Nat.mul_le_mul_right m hi

theorem succ_mod_ne {M i : ℕ} (hM : 2 ≤ M) (hi : i < M) : (i + 1) % M ≠ i := by
  rcases lt_or_le (i + 1) M with h | h
  · rw [Nat.mod_eq_of_lt h]
    omega
  · have : i + 1 = M := by omega
    rw [this, Nat.mod_self]
    omega

theorem add_two_mod_ne {m j : ℕ} (hm : 3 ≤ m) (hj : j < m) : (j + 2) % m ≠ j := by
  rcases lt_or_le (j + 2) m with h | h
  · rw [Nat.mod_eq_of_lt h]
    omega
  · rw [Nat.mod_eq_sub_mod h, Nat.mod_eq_of_lt (by omega)]
    omega

/-- Membership in one grid row's edge contribution. -/
theorem mem_gridRow {m : ℕ} {x : ℕ × ℕ} (f : ℕ → ℕ × ℕ) (g : ℕ → ℕ × ℕ)
    (h : x ∈ (List.range m).flatMap (fun j => [f j, g j])) :
    ∃ j < m, x = f j ∨ x = g j := by
  simp only [List.mem_flatMap, List.mem_range, List.mem_cons, List.not_mem_nil,
    or_false] at h
  obtain ⟨j, hj, hx⟩ := h
  exact ⟨j, hj, hx⟩

theorem sameUnordered_symm {e f : ℕ × ℕ} (h : sameUnordered e f) : sameUnordered f e := by
  rcases h with h | ⟨h1, h2⟩
  · exact Or.inl h.symm
  · exact Or.inr ⟨h2.symm, h1.symm⟩

/-- A "horizontal" and a "vertical" grid edge are never the same unordered
pair: both endpoints of the former sit in row `i` (`index / m = i`), while
the latter's endpoints sit in distinct rows. -/
theorem grid_H_ne_V {M m : ℕ} (hM : 3 ≤ M) (hm : 3 ≤ m)
    {i j i' j' : ℕ} (hi : i < M) (hi' : i' < M) (hj : j < m) (hj' : j' < m) :
    ¬ sameUnordered (i * m + j, i * m + (j + 1) % m)
      (i' * m + j', ((i' + 1) % M) * m + j') := by
  have hj1 : (j + 1) % m < m := Nat.mod_lt _ (by omega)
  have hi'1 : (i' + 1) % M < M := Nat.mod_lt _ (by omega)
  have hne : (i' + 1) % M ≠ i' := succ_mod_ne (by omega) hi'
  rintro (heq | ⟨h1, h2⟩)
  · have e1 := congrArg Prod.fst heq
    have e2 := congrArg Prod.snd heq
    simp only at e1 e2
    obtain ⟨hii, -⟩ := grid_idx_inj hj hj' e1
    obtain ⟨hii2, -⟩ := grid_idx_inj hj1 hj' e2
    exact hne (by omega)
  · simp only at h1 h2
    obtain ⟨hii, -⟩ := grid_idx_inj hj hj' h1
    obtain ⟨hii2, -⟩ := grid_idx_inj hj1 hj' h2
    exact hne (by omega)

/-- Two distinct "horizontal" grid edges are never the same unordered pair
(for `m ≥ 3`: the cycle on `m ≥ 3` vertices has no doubled edges). -/
theorem grid_H_ne_H {M m : ℕ} (hM : 3 ≤ M) (hm : 3 ≤ m)
    {i j i' j' : ℕ} (hi : i < M) (hi' : i' < M) (hj : j < m) (hj' : j' < m)
    (hne : (i, j) ≠ (i', j')) :
    ¬ sameUnordered (i * m + j, i * m + (j + 1) % m)
      (i' * m + j', i' * m + (j' + 1) % m) := by
  have hj1 : (j + 1) % m < m := Nat.mod_lt _ (by omega)
  have hj'1 : (j' + 1) % m < m := Nat.mod_lt _ (by omega)
  rintro (heq | ⟨h1, h2⟩)
  · have e1 := congrArg Prod.fst heq
    simp only at e1
    obtain ⟨hii, hjj⟩ := grid_idx_inj hj hj' e1
    exact hne (by rw [hii, hjj])
  · simp only at h1 h2
    obtain ⟨hii, hjj⟩ := grid_idx_inj hj hj'1 h1
    obtain ⟨-, hjj2⟩ := grid_idx_inj hj1 hj' h2
    -- j = (j'+1) % m and (j+1) % m = j', so j = (j+2) % m — impossible for m ≥ 3
    have : (j + 2) % m = j := by
      rw [show j + 2 = j + 1 + 1 by ring, ← Nat.mod_add_mod, hjj2, ← hjj]
    exact add_two_mod_ne hm hj this

/-- Two distinct "vertical" grid edges are never the same unordered pair
(for `M ≥ 3`). -/
theorem grid_V_ne_V {M m : ℕ} (hM : 3 ≤ M) (hm : 3 ≤ m)
    {i j i' j' : ℕ} (hi : i < M) (hi' : i' < M) (hj : j < m) (hj' : j' < m)
    (hne : (i, j) ≠ (i', j')) :
    ¬ sameUnordered (i * m + j, ((i + 1) % M) * m + j)
      (i' * m + j', ((i' + 1) % M) * m + j') := by
  have hi1 : (i + 1) % M < M := Nat.mod_lt _ (by omega)
  have hi'1 : (i' + 1) % M < M := Nat.mod_lt _ (by omega)
  rintro (heq | ⟨h1, h2⟩)
  · have e1 := congrArg Prod.fst heq
    simp only at e1
    obtain ⟨hii, hjj⟩ := grid_idx_inj hj hj' e1
    exact hne (by rw [hii, hjj])
  · simp only at h1 h2
    obtain ⟨hii, hjj⟩ := grid_idx_inj hj hj' h1
    obtain ⟨hii2, -⟩ := grid_idx_inj hj hj' h2
    -- i = (i'+1) % M and (i+1) % M = i', so i = (i+2) % M — impossible for M ≥ 3
    have : (i + 2) % M = i := by
      rw [show i + 2 = i + 1 + 1 by ring, ← Nat.mod_add_mod, hii2, ← hii]
    exact add_two_mod_ne hM hi this

/-- All pointwise distinctness cases between grid edges of cells `(i, j)` and
`(i', j')`, assuming the cells differ. -/
theorem grid_cell_edges_ne {M m : ℕ} (hM : 3 ≤ M) (hm : 3 ≤ m)
    {i j i' j' : ℕ} (hi : i < M) (hi' : i' < M) (hj : j < m) (hj' : j' < m)
    (hne : (i, j) ≠ (i', j')) :
    ∀ x ∈ [(i * m + j, i * m + (j + 1) % m),
           (i * m + j, ((i + 1) % M) * m + j)],
    ∀ y ∈ [(i' * m + j', i' * m + (j' + 1) % m),
           (i' * m + j', ((i' + 1) % M) * m + j')],
    ¬ sameUnordered x y := by
  intro x hx y hy
  simp only [List.mem_cons, List.not_mem_nil, or_false] at hx hy
  rcases hx with rfl | rfl <;> rcases hy with rfl | rfl
  · exact grid_H_ne_H hM hm hi hi' hj hj' hne
  · exact grid_H_ne_V hM hm hi hi' hj hj'
  · exact fun h => grid_H_ne_V hM hm hi' hi hj' hj (sameUnordered_symm h)
  · exact grid_V_ne_V hM hm hi hi' hj hj' hne

theorem gridEdges_pairwise (M m : ℕ) (hM : 3 ≤ M) (hm : 3 ≤ m) :
    (gridEdges M m).Pairwise (fun e1 e2 => ¬ sameUnordered e1 e2) := by
  rw [gridEdges]
  refine List.pairwise_flatMap.mpr ⟨?_, ?_⟩
  · intro i hi
    rw [List.mem_range] at hi
    refine List.pairwise_flatMap.mpr ⟨?_, ?_⟩
    · intro j hj
      rw [List.mem_range] at hj
      refine List.Pairwise.cons ?_ (List.pairwise_singleton _ _)
      intro y hy
      simp only [List.mem_cons, List.not_mem_nil, or_false] at hy
      subst hy
      exact grid_H_ne_V hM hm hi hi hj hj
    · refine (List.pairwise_lt_range m).imp_of_mem ?_
      intro j j' hjm hj'm hlt
      rw [List.mem_range] at hjm hj'm
      exact grid_cell_edges_ne hM hm hi hi hjm hj'm (by simp; omega)
  · refine (List.pairwise_lt_range M).imp_of_mem ?_
    intro i i' him hi'm hlt x hx y hy
    rw [List.mem_range] at him hi'm
    obtain ⟨j, hj, hxe⟩ := mem_gridRow _ _ hx
    obtain ⟨j', hj', hye⟩ := mem_gridRow _ _ hy
    have hcell : (i, j) ≠ (i', j') := by simp; omega
    rcases hxe with rfl | rfl <;> rcases hye with rfl | rfl
    · exact grid_H_ne_H hM hm him hi'm hj hj' hcell
    · exact grid_H_ne_V hM hm him hi'm hj hj'
    · exact fun h => grid_H_ne_V hM hm hi'm him hj' hj (sameUnordered_symm h)
    · exact grid_V_ne_V hM hm him hi'm hj hj' hcell

theorem mem_gridEdges {M m : ℕ} {e : ℕ × ℕ} (h : e ∈ gridEdges M m) :
    ∃ i < M, ∃ j < m,
      e = (i * m + j, i * m + (j + 1) % m) ∨
      e = (i * m + j, ((i + 1) % M) * m + j) := by
  simp only [gridEdges, List.mem_flatMap, List.mem_range, List.mem_cons,
    List.not_mem_nil, or_false] at h
  obtain ⟨i, hi, j, hj, hx⟩ := h
  exact ⟨i, hi, j, hj, hx⟩

theorem gridEdges_bounds (M m : ℕ) :
    ∀ e ∈ gridEdges M m, e.1 < M * m ∧ e.2 < M * m := by
  intro e he
  obtain ⟨i, hi, j, hj, hx⟩ := mem_gridEdges he
  have hm0 : 0 < m := by omega
  have hM0 : 0 < M := by omega
  have h1 : (j + 1) % m < m := Nat.mod_lt _ hm0
  have h2 : (i + 1) % M < M := Nat.mod_lt _ hM0
  rcases hx with rfl | rfl
  · exact ⟨grid_idx_lt hi hj, grid_idx_lt hi h1⟩
  · exact ⟨grid_idx_lt hi hj, grid_idx_lt h2 hj⟩

theorem gridEdges_no_self_loop (M m : ℕ) (hM : 2 ≤ M) (hm : 2 ≤ m) :
    ∀ e ∈ gridEdges M m, e.1 ≠ e.2 := by
  intro e he
  obtain ⟨i, hi, j, hj, hx⟩ := mem_gridEdges he
  have h1 : (j + 1) % m < m := Nat.mod_lt _ (by omega)
  have h2 : (i + 1) % M < M := Nat.mod_lt _ (by omega)
  rcases hx with rfl | rfl
  · intro h
    exact succ_mod_ne hm hj (grid_idx_inj hj h1 h).2.symm
  · intro h
    exact succ_mod_ne hM hi
      (by have := (grid_idx_inj hj hj h).1; omega)

theorem gridFaces_bound (M m : ℕ) :
    ∀ f ∈ gridFaces M m, ∀ ix ∈ f, ix < M * m := by
  intro f hf ix hix
  simp only [gridFaces, List.mem_flatMap, List.mem_range, List.mem_cons,
    List.not_mem_nil, or_false] at hf
  obtain ⟨i, hi, j, hj, hx⟩ := hf
  have hm0 : 0 < m := by omega
  have hM0 : 0 < M := by omega
  have h1 : (j + 1) % m < m := Nat.mod_lt _ hm0
  have h2 : (i + 1) % M < M := Nat.mod_lt _ hM0
  rcases hx with rfl | rfl <;>
    · simp only [List.mem_cons, List.not_mem_nil, or_false] at hix
      rcases hix with rfl | rfl | rfl
      all_goals first
        | exact grid_idx_lt hi hj
        | exact grid_idx_lt hi h1
        | exact grid_idx_lt h2 h1
        | exact grid_idx_lt h2 hj

/-! 600-cell and grid-generator invariants. -/

theorem mem_of_mem_dedup_foldl (l : List (List Q5)) :
    ∀ (acc : List (List Q5)) (v : List Q5),
      v ∈ l.foldl (fun acc v => if v ∈ acc then acc else acc ++ [v]) acc →
      v ∈ acc ∨ v ∈ l := by
  induction l with
  | nil => exact fun acc v hv => Or.inl hv
  | cons x l ih =>
      intro acc v hv
      rw [List.foldl_cons] at hv
      rcases ih _ v hv with h | h
      · by_cases hx : x ∈ acc
        · rw [if_pos hx] at h
          exact Or.inl h
        · rw [if_neg hx] at h
          rcases List.mem_append.mp h with h | h
          · exact Or.inl h
          · simp only [List.mem_singleton] at h
            exact Or.inr (h ▸ List.mem_cons_self x l)
      · exact Or.inr (List.mem_cons_of_mem x h)

theorem mem_of_mem_dedupVertices (l : List (List Q5)) (v : List Q5)
    (h : v ∈ dedupVertices l) : v ∈ l := by
  rcases mem_of_mem_dedup_foldl l [] v h with h' | h'
  · exact absurd h' (List.not_mem_nil v)
  · exact h'

theorem dedup_foldl_length_le (l : List (List Q5)) :
    ∀ acc : List (List Q5),
      (l.foldl (fun acc v => if v ∈ acc then acc else acc ++ [v]) acc).length ≤
        acc.length + l.length := by
  induction l with
  | nil =>
      intro acc
      simp
  | cons x l ih =>
      intro acc
      rw [List.foldl_cons, List.length_cons]
      by_cases hx : x ∈ acc
      · rw [if_pos hx]
        have := ih acc
        omega
      · rw [if_neg hx]
        have := ih (acc ++ [x])
        rw [List.length_append, List.length_singleton] at this
        omega

/-- The keep-first fold drops at least one entry when the input repeats a
vertex (or revisits one already in the accumulator). -/
theorem dedup_foldl_length_lt (l : List (List Q5)) :
    ∀ acc : List (List Q5), ((∃ v ∈ l, v ∈ acc) ∨ ¬ l.Nodup) →
      (l.foldl (fun acc v => if v ∈ acc then acc else acc ++ [v]) acc).length <
        acc.length + l.length := by
  induction l with
  | nil =>
      intro acc h
      rcases h with ⟨v, hv, -⟩ | h
      · exact absurd hv (List.not_mem_nil v)
      · exact absurd List.nodup_nil h
  | cons x l ih =>
      intro acc h
      rw [List.foldl_cons, List.length_cons]
      by_cases hx : x ∈ acc
      · rw [if_pos hx]
        have := dedup_foldl_length_le l acc
        omega
      · rw [if_neg hx]
        have hnext : (∃ v ∈ l, v ∈ acc ++ [x]) ∨ ¬ l.Nodup := by
          rcases h with ⟨v, hv, hva⟩ | h
          · rcases List.mem_cons.mp hv with rfl | hv'
            · exact absurd hva hx
            · exact Or.inl ⟨v, hv', List.mem_append_left _ hva⟩
          · by_cases hxl : x ∈ l
            · exact Or.inl ⟨x, hxl,
                List.mem_append_right _ (List.mem_singleton_self x)⟩
            · exact Or.inr (fun hnd => h (List.nodup_cons.mpr ⟨hxl, hnd⟩))
        have := ih (acc ++ [x]) hnext
        rw [List.length_append, List.length_singleton] at this
        omega

theorem dedupVertices_length_lt (l : List (List Q5)) (h : ¬ l.Nodup) :
    (dedupVertices l).length < l.length := by
  have := dedup_foldl_length_lt l [] (Or.inr h)
  rw [List.length_nil, Nat.zero_add] at this
  exact this

theorem create600CellVertices_dim (size : ℚ) :
    ∀ v ∈ create600CellVertices size, v.length = 4 := by
  intro v hv
  have hv' := mem_of_mem_dedupVertices _ v hv
  rcases List.mem_append.mp hv' with h | h
  · rcases List.mem_append.mp h with h' | h'
    · simp only [create600CellAxisVertices, List.mem_flatMap, List.mem_map,
        List.mem_cons, List.not_mem_nil, or_false] at h'
      obtain ⟨d, _, sign, _, rfl⟩ := h'
      simp
    · simp only [create600CellHalfVertices, List.mem_map, List.mem_range] at h'
      obtain ⟨i, _, rfl⟩ := h'
      simp
  · simp only [create600CellPermVertices, List.mem_flatMap, List.mem_range] at h
    obtain ⟨perm, _, signs, _, hv2⟩ := h
    by_cases hc : (sixHundredCoords size perm signs).any (fun c => decide (c ≠ 0))
    · rw [if_pos hc] at hv2
      simp only [List.mem_singleton] at hv2
      subst hv2
      simp [sixHundredCoords]
    · rw [if_neg hc] at hv2
      exact absurd hv2 (List.not_mem_nil v)

theorem create600Cell_invariants (size : ℚ) :
    geomInvariants (create600Cell size) := by
  have hv : (create600Cell size).vertices = create600CellVertices size := by
    unfold create600Cell
    dsimp only
  have he : (create600Cell size).edges = create600CellEdges size := by
    unfold create600Cell
    dsimp only
  have hf : (create600Cell size).faces = create600CellFaces size := by
    unfold create600Cell
    dsimp only
  refine ⟨?_, ?_, ?_, ?_, ?_⟩
  · intro e hee
    rw [he, create600CellEdges] at hee
    rw [hv]
    exact pairsLT_bounds _ _ e hee
  · intro f hff ix hix
    rw [hf, create600CellFaces] at hff
    rw [hv]
    exact triplesLT_bound f hff ix hix
  · intro v hvv
    rw [hv] at hvv
    exact create600CellVertices_dim size v hvv
  · rw [he, create600CellEdges]
    exact (pairsLT_edges_ok _ _).1
  · intro e hee
    rw [he, create600CellEdges] at hee
    exact (pairsLT_edges_ok _ _).2 e hee

theorem cliffordTorusVertices_length (cos sin sqrt : ℚ → ℚ) (M m : ℕ) (size : ℚ) :
    (cliffordTorusVertices cos sin sqrt M m size).length = M * m := by
  rw [cliffordTorusVertices, length_flatMap_const _ _ m (by
    intro a _
    rw [List.length_map, List.length_range]), List.length_range]

theorem cliffordTorusVertices_dim (cos sin sqrt : ℚ → ℚ) (M m : ℕ) (size : ℚ) :
    ∀ v ∈ cliffordTorusVertices cos sin sqrt M m size, v.length = 4 := by
  intro v hv
  simp only [cliffordTorusVertices, List.mem_flatMap, List.mem_map,
    List.mem_range] at hv
  obtain ⟨i, _, j, _, rfl⟩ := hv
  rfl

theorem createCliffordTorus_invariants (cos sin sqrt : ℚ → ℚ) (M m : ℕ) (size : ℚ)
    (hM : 3 ≤ M) (hm : 3 ≤ m) :
    geomInvariants (createCliffordTorus cos sin sqrt M m size) := by
  have hlen : (createCliffordTorus cos sin sqrt M m size).vertices.length = M * m :=
    cliffordTorusVertices_length cos sin sqrt M m size
  refine ⟨?_, ?_, ?_, ?_, ?_⟩
  · intro e he
    rw [hlen]
    exact gridEdges_bounds M m e he
  · intro f hf ix hix
    rw [hlen]
    exact gridFaces_bound M m f hf ix hix
  · exact cliffordTorusVertices_dim cos sin sqrt M m size
  · exact gridEdges_pairwise M m hM hm
  · exact gridEdges_no_self_loop M m (by omega) (by omega)

theorem duocylinderVertices_length (cos sin : ℚ → ℚ) (s : ℕ) (size : ℚ) :
    (duocylinderVertices cos sin s size).length = s * s := by
  rw [duocylinderVertices, length_flatMap_const _ _ s (by
    intro a _
    rw [List.length_map, List.length_range]), List.length_range]

theorem duocylinderVertices_dim (cos sin : ℚ → ℚ) (s : ℕ) (size : ℚ) :
    ∀ v ∈ duocylinderVertices cos sin s size, v.length = 4 := by
  intro v hv
  simp only [duocylinderVertices, List.mem_flatMap, List.mem_map,
    List.mem_range] at hv
  obtain ⟨i, _, j, _, rfl⟩ := hv
  rfl

theorem createDuocylinder_invariants (cos sin : ℚ → ℚ) (s : ℕ) (size : ℚ)
    (hs : 3 ≤ s) :
    geomInvariants (createDuocylinder cos sin s size) := by
  have hlen : (createDuocylinder cos sin s size).vertices.length = s * s :=
    duocylinderVertices_length cos sin s size
  refine ⟨?_, ?_, ?_, ?_, ?_⟩
  · intro e he
    rw [hlen]
    exact gridEdges_bounds s s e he
  · intro f hf ix hix
    rw [hlen]
    exact gridFaces_bound s s f hf ix hix
  · exact duocylinderVertices_dim cos sin s size
  · exact gridEdges_pairwise s s hs hs
  · exact gridEdges_no_self_loop s s (by omega) (by omega)

/-! ### createHypercone

`createHypercone(segments = 16, rings = 8, size = 1)`: an apex at
`(0, 0, 0, height)` with `height = 1.5·size`, plus `rings` spherical layers.
Layer `ring ∈ 1..rings` has radius `size·(ring/rings)` and fourth coordinate
`height·(1 - ring/rings)`; within a layer, `θ = 2π·i/segments` for
`i < segments` and `φ = π·j/(segments/2)` for real `j < segments/2`, i.e.
`j < ⌈segments/2⌉ = (segments+1)/2` iterations.  Both angles are `2π·(k/segments)`,
represented by the turn fraction `k/segments`.  The connection loops use
`firstRingSize = segments · ⌊segments/2⌋` — which overcounts nothing for even
`segments` but undercounts the actual per-layer vertex count for odd
`segments`; the loops' explicit `< vertices.length` guards are embedded
faithfully (as `takeWhile`, since a JS `for` loop stops at the first failing
condition). -/

/-- `firstRingSize = segments * Math.floor(segments / 2)`. -/
def hyperconeF (segments : ℕ) : ℕ := segments * (segments / 2)

def hyperconeVertices (cos sin : ℚ → ℚ) (segments rings : ℕ) (size : ℚ) :
    List (List ℚ) :=
  [[0, 0, 0, size * (3/2)]] ++
  (List.range rings).flatMap (fun (r0 : ℕ) =>
    (List.range segments).flatMap (fun (i : ℕ) =>
      (List.range ((segments + 1) / 2)).map (fun (j : ℕ) =>
        [size * (((r0 : ℚ) + 1) / (rings : ℚ)) * sin ((j : ℚ) / segments) *
            cos ((i : ℚ) / segments),
         size * (((r0 : ℚ) + 1) / (rings : ℚ)) * sin ((j : ℚ) / segments) *
            sin ((i : ℚ) / segments),
         size * (((r0 : ℚ) + 1) / (rings : ℚ)) * cos ((j : ℚ) / segments),
         size * (3/2) * (1 - ((r0 : ℚ) + 1) / (rings : ℚ))])))

/-- Apex connections: `for (i = 1; i <= firstRingSize && i < len; i++)`
pushes the edge `[0, i]`. -/
def hyperconeApexEdges (F len : ℕ) : List (ℕ × ℕ) :=
  (List.range' 1 (min F (len - 1))).map (fun i => ((0 : ℕ), i))

/-- The same loop pushes the face `[0, i, i % firstRingSize + 1]`
(the source's `|| 1` fallback never fires since `i % F + 1 ≥ 1`). -/
def hyperconeApexFaces (F len : ℕ) : List (List ℕ) :=
  (List.range' 1 (min F (len - 1))).map (fun i => [0, i, i % F + 1])

/-- Ring connections: for each `ring < rings - 1`, with
`ringStart = 1 + ring·F`, iterate `i` while
`i < F && ringStart + i < len && ringStart + F + i < len`, pushing
`[curr, currDown]` then `[curr, next]` under their respective guards. -/
def hyperconeRingEdges (F len rings : ℕ) : List (ℕ × ℕ) :=
  (List.range (rings - 1)).flatMap (fun ring =>
    ((List.range F).takeWhile (fun i =>
        decide (1 + ring * F + i < len ∧ 1 + ring * F + F + i < len))).flatMap (fun i =>
      (if 1 + ring * F + i < len ∧ 1 + ring * F + F + i < len
       then [(1 + ring * F + i, 1 + ring * F + F + i)] else []) ++
      (if 1 + ring * F + i < len ∧ 1 + ring * F + (i + 1) % F < len
       then [(1 + ring * F + i, 1 + ring * F + (i + 1) % F)] else [])))

/-- The same loop pushes the face `[curr, next, currDown]` when all three
indices are in range. -/
def hyperconeRingFaces (F len rings : ℕ) : List (List ℕ) :=
  (List.range (rings - 1)).flatMap (fun ring =>
    ((List.range F).takeWhile (fun i =>
        decide (1 + ring * F + i < len ∧ 1 + ring * F + F + i < len))).flatMap (fun i =>
      if 1 + ring * F + i < len ∧ 1 + ring * F + (i + 1) % F < len ∧
          1 + ring * F + F + i < len
      then [[1 + ring * F + i, 1 + ring * F + (i + 1) % F, 1 + ring * F + F + i]]
      else []))

def createHypercone (cos sin : ℚ → ℚ) (segments rings : ℕ) (size : ℚ) :
    GeometryND ℚ :=
  ⟨"Hypercone", 4, hyperconeVertices cos sin segments rings size,
    hyperconeApexEdges (hyperconeF segments)
        (hyperconeVertices cos sin segments rings size).length ++
      hyperconeRingEdges (hyperconeF segments)
        (hyperconeVertices cos sin segments rings size).length rings,
    hyperconeApexFaces (hyperconeF segments)
        (hyperconeVertices cos sin segments rings size).length ++
      hyperconeRingFaces (hyperconeF segments)
        (hyperconeVertices cos sin segments rings size).length rings⟩

theorem hyperconeVertices_length (cos sin : ℚ → ℚ) (segments rings : ℕ) (size : ℚ) :
    (hyperconeVertices cos sin segments rings size).length =
      1 + rings * (segments * ((segments + 1) / 2)) := by
  have h2 : ∀ (r0 : ℕ),
      ((List.range segments).flatMap (fun (i : ℕ) =>
        (List.range ((segments + 1) / 2)).map (fun (j : ℕ) =>
          [size * (((r0 : ℚ) + 1) / (rings : ℚ)) * sin ((j : ℚ) / segments) *
              cos ((i : ℚ) / segments),
           size * (((r0 : ℚ) + 1) / (rings : ℚ)) * sin ((j : ℚ) / segments) *
              sin ((i : ℚ) / segments),
           size * (((r0 : ℚ) + 1) / (rings : ℚ)) * cos ((j : ℚ) / segments),
           size * (3/2) * (1 - ((r0 : ℚ) + 1) / (rings : ℚ))]))).length =
        segments * ((segments + 1) / 2) := fun r0 => by
    rw [length_flatMap_const _ _ ((segments + 1) / 2) (fun b _ => by
      rw [List.length_map, List.length_range]), List.length_range]
  rw [hyperconeVertices, List.length_append, List.length_cons, List.length_nil,
    length_flatMap_const _ _ (segments * ((segments + 1) / 2)) (fun a _ => h2 a),
    List.length_range]

theorem hyperconeVertices_dim (cos sin : ℚ → ℚ) (segments rings : ℕ) (size : ℚ) :
    ∀ v ∈ hyperconeVertices cos sin segments rings size, v.length = 4 := by
  intro v hv
  rcases List.mem_append.mp hv with h | h
  · simp only [List.mem_singleton] at h
    subst h
    rfl
  · simp only [List.mem_flatMap, List.mem_map, List.mem_range] at h
    obtain ⟨r0, _, i, _, j, _, rfl⟩ := h
    rfl

/-! Hypercone edge combinatorics.  `idx ring i = 1 + ring·F + i` with
`i < F = firstRingSize`: "vertical" edges `(idx ring i, idx (ring+1) i)` and
"horizontal" edges `(idx ring i, idx ring ((i+1) % F))`. -/

theorem takeWhile_eq_self_of {α : Type} (p : α → Bool) (l : List α)
    (h : ∀ x ∈ l, p x = true) : l.takeWhile p = l := by
  induction l with
  | nil => rfl
  | cons x xs ih =>
      rw [List.takeWhile_cons, if_pos (h x (List.mem_cons_self x xs)),
        ih (fun y hy => h y (List.mem_cons_of_mem x hy))]

theorem flatMap_congr_mem {α β : Type} (l : List α) (f g : α → List β)
    (h : ∀ a ∈ l, f a = g a) : l.flatMap f = l.flatMap g := by
  induction l with
  | nil => rfl
  | cons a l ih =>
      rw [List.flatMap_cons, List.flatMap_cons, h a (List.mem_cons_self a l),
        ih (fun a' h' => h a' (List.mem_cons_of_mem a h'))]

/-- The loop guards of the ring-connection loops are always satisfied:
`1 + ring·F + F + i` stays below the vertex count. -/
theorem hypercone_guard (s rings ring i : ℕ) (hring : ring < rings - 1)
    (hi : i < s * (s / 2)) :
    1 + ring * (s * (s / 2)) + s * (s / 2) + i < 1 + rings * (s * ((s + 1) / 2)) := by
  have h2 : ring + 2 ≤ rings := by omega
  have hd : (ring + 2) * (s * (s / 2)) = ring * (s * (s / 2)) + 2 * (s * (s / 2)) := by
    ring
  have hm : (ring + 2) * (s * (s / 2)) ≤ rings * (s * (s / 2)) :=
    Nat.mul_le_mul_right _ h2
  have hF : s * (s / 2) ≤ s * ((s + 1) / 2) :=
    Nat.mul_le_mul_left _ (Nat.div_le_div_right (by omega))
  have hr : rings * (s * (s / 2)) ≤ rings * (s * ((s + 1) / 2)) :=
    Nat.mul_le_mul_left _ hF
  omega

/-- Under the always-true guards, the ring-connection edge list is the plain
double `flatMap` over `ring < rings - 1` and `i < F`. -/
theorem hyperconeRingEdges_eq (s rings : ℕ) :
    hyperconeRingEdges (s * (s / 2)) (1 + rings * (s * ((s + 1) / 2))) rings =
      (List.range (rings - 1)).flatMap (fun ring =>
        (List.range (s * (s / 2))).flatMap (fun i =>
          [(1 + ring * (s * (s / 2)) + i,
            1 + ring * (s * (s / 2)) + s * (s / 2) + i),
           (1 + ring * (s * (s / 2)) + i,
            1 + ring * (s * (s / 2)) + (i + 1) % (s * (s / 2)))])) := by
  unfold hyperconeRingEdges
  refine flatMap_congr_mem _ _ _ ?_
  intro ring hring
  rw [List.mem_range] at hring
  rw [takeWhile_eq_self_of _ _ (fun i hi => ?_)]
  · refine flatMap_congr_mem _ _ _ ?_
    intro i hi
    rw [List.mem_range] at hi
    have hg := hypercone_guard s rings ring i hring hi
    have hnext : (i + 1) % (s * (s / 2)) < s * (s / 2) := Nat.mod_lt _ (by omega)
    rw [if_pos ⟨by omega, hg⟩, if_pos ⟨by omega, by omega⟩]
    rfl
  · rw [List.mem_range] at hi
    have hg := hypercone_guard s rings ring i hring hi
    exact decide_eq_true ⟨by omega, hg⟩

theorem hyper_idx_inj {F r i r' i' : ℕ} (hi : i < F) (hi' : i' < F)
    (h : 1 + r * F + i = 1 + r' * F + i') : r = r' ∧ i = i' := by
  have h' : r * F + i = r' * F + i' := by omega
  exact grid_idx_inj hi hi' h'

/-- Vertical vs horizontal ring edges: a vertical edge spans two layers, a
horizontal edge stays within one. -/
theorem hyper_V_ne_H {F : ℕ} {r i r' i' : ℕ} (hi : i < F) (hi' : i' < F) :
    ¬ sameUnordered (1 + r * F + i, 1 + r * F + F + i)
      (1 + r' * F + i', 1 + r' * F + (i' + 1) % F) := by
  have hmod : (i' + 1) % F < F := Nat.mod_lt _ (by omega)
  have hVrow : 1 + r * F + F + i = 1 + (r + 1) * F + i := by ring
  rintro (heq | ⟨h1, h2⟩)
  · have e1 := congrArg Prod.fst heq
    have e2 := congrArg Prod.snd heq
    simp only at e1 e2
    obtain ⟨hr1, -⟩ := hyper_idx_inj hi hi' e1
    rw [hVrow] at e2
    obtain ⟨hr2, -⟩ := hyper_idx_inj hi hmod e2
    omega
  · simp only at h1 h2
    obtain ⟨hr1, -⟩ := hyper_idx_inj hi hmod h1
    rw [hVrow] at h2
    obtain ⟨hr2, -⟩ := hyper_idx_inj hi hi' h2
    omega

/-- Two distinct horizontal ring edges differ as unordered pairs (`F ≥ 3`). -/
theorem hyper_H_ne_H {F : ℕ} (hF : 3 ≤ F) {r i r' i' : ℕ} (hi : i < F) (hi' : i' < F)
    (hne : (r, i) ≠ (r', i')) :
    ¬ sameUnordered (1 + r * F + i, 1 + r * F + (i + 1) % F)
      (1 + r' * F + i', 1 + r' * F + (i' + 1) % F) := by
  have hmod : (i + 1) % F < F := Nat.mod_lt _ (by omega)
  have hmod' : (i' + 1) % F < F := Nat.mod_lt _ (by omega)
  rintro (heq | ⟨h1, h2⟩)
  · have e1 := congrArg Prod.fst heq
    simp only at e1
    obtain ⟨hr1, hi1⟩ := hyper_idx_inj hi hi' e1
    exact hne (by rw [hr1, hi1])
  · simp only at h1 h2
    obtain ⟨hr1, hi1⟩ := hyper_idx_inj hi hmod' h1
    obtain ⟨-, hi2⟩ := hyper_idx_inj hmod hi' h2
    have : (i + 2) % F = i := by
      rw [show i + 2 = i + 1 + 1 by ring, ← Nat.mod_add_mod, hi2, ← hi1]
    exact add_two_mod_ne hF hi this

/-- Two distinct vertical ring edges differ as unordered pairs. -/
theorem hyper_V_ne_V {F : ℕ} {r i r' i' : ℕ} (hi : i < F) (hi' : i' < F)
    (hne : (r, i) ≠ (r', i')) :
    ¬ sameUnordered (1 + r * F + i, 1 + r * F + F + i)
      (1 + r' * F + i', 1 + r' * F + F + i') := by
  have hVrow : 1 + r * F + F + i = 1 + (r + 1) * F + i := by ring
  have hVrow' : 1 + r' * F + F + i' = 1 + (r' + 1) * F + i' := by ring
  rintro (heq | ⟨h1, h2⟩)
  · have e1 := congrArg Prod.fst heq
    simp only at e1
    obtain ⟨hr1, hi1⟩ := hyper_idx_inj hi hi' e1
    exact hne (by rw [hr1, hi1])
  · simp only at h1 h2
    rw [hVrow'] at h1
    rw [hVrow] at h2
    obtain ⟨hr1, -⟩ := hyper_idx_inj hi hi' h1
    obtain ⟨hr2, -⟩ := hyper_idx_inj hi hi' h2
    omega

/-- All pointwise cases between the ring edges of cells `(r, i) ≠ (r', i')`. -/
theorem hyper_cell_edges_ne {F : ℕ} (hF : 3 ≤ F) {r i r' i' : ℕ}
    (hi : i < F) (hi' : i' < F) (hne : (r, i) ≠ (r', i')) :
    ∀ x ∈ [(1 + r * F + i, 1 + r * F + F + i),
           (1 + r * F + i, 1 + r * F + (i + 1) % F)],
    ∀ y ∈ [(1 + r' * F + i', 1 + r' * F + F + i'),
           (1 + r' * F + i', 1 + r' * F + (i' + 1) % F)],
    ¬ sameUnordered x y := by
  intro x hx y hy
  simp only [List.mem_cons, List.not_mem_nil, or_false] at hx hy
  rcases hx with rfl | rfl <;> rcases hy with rfl | rfl
  · exact hyper_V_ne_V hi hi' hne
  · exact hyper_V_ne_H hi hi'
  · exact fun h => hyper_V_ne_H hi' hi (sameUnordered_symm h)
  · exact hyper_H_ne_H hF hi hi' hne

theorem hyperconeRingEdgesSimple_pairwise (F rings : ℕ) (hF : 3 ≤ F) :
    ((List.range (rings - 1)).flatMap (fun ring =>
      (List.range F).flatMap (fun i =>
        [(1 + ring * F + i, 1 + ring * F + F + i),
         (1 + ring * F + i, 1 + ring * F + (i + 1) % F)]))).Pairwise
      (fun e1 e2 => ¬ sameUnordered e1 e2) := by
  refine List.pairwise_flatMap.mpr ⟨?_, ?_⟩
  · intro ring hring
    refine List.pairwise_flatMap.mpr ⟨?_, ?_⟩
    · intro i hi
      rw [List.mem_range] at hi
      refine List.Pairwise.cons ?_ (List.pairwise_singleton _ _)
      intro y hy
      simp only [List.mem_cons, List.not_mem_nil, or_false] at hy
      subst hy
      exact hyper_V_ne_H hi hi
    · refine (List.pairwise_lt_range F).imp_of_mem ?_
      intro i i' him hi'm hlt
      rw [List.mem_range] at him hi'm
      exact hyper_cell_edges_ne hF him hi'm (by simp; omega)
  · refine (List.pairwise_lt_range (rings - 1)).imp_of_mem ?_
    intro ring ring' hrm hr'm hlt x hx y hy
    obtain ⟨i, hi, hxe⟩ := mem_gridRow _ _ hx
    obtain ⟨i', hi', hye⟩ := mem_gridRow _ _ hy
    have hcell : (ring, i) ≠ (ring', i') := by simp; omega
    rcases hxe with rfl | rfl <;> rcases hye with rfl | rfl
    · exact hyper_V_ne_V hi hi' hcell
    · exact hyper_V_ne_H hi hi'
    · exact fun h => hyper_V_ne_H hi' hi (sameUnordered_symm h)
    · exact hyper_H_ne_H hF hi hi' hcell

theorem hyperconeRingEdgesSimple_mem {F rings : ℕ} {e : ℕ × ℕ}
    (h : e ∈ (List.range (rings - 1)).flatMap (fun ring =>
      (List.range F).flatMap (fun i =>
        [(1 + ring * F + i, 1 + ring * F + F + i),
         (1 + ring * F + i, 1 + ring * F + (i + 1) % F)]))) :
    ∃ ring < rings - 1, ∃ i < F,
      e = (1 + ring * F + i, 1 + ring * F + F + i) ∨
      e = (1 + ring * F + i, 1 + ring * F + (i + 1) % F) := by
  simp only [List.mem_flatMap, List.mem_range, List.mem_cons, List.not_mem_nil,
    or_false] at h
  obtain ⟨ring, hring, i, hi, hx⟩ := h
  exact ⟨ring, hring, i, hi, hx⟩

/-- Ring edges never touch the apex (index 0) and never form self-loops. -/
theorem hyperconeRingEdgesSimple_pos {F rings : ℕ} (hF : 2 ≤ F) :
    ∀ e ∈ (List.range (rings - 1)).flatMap (fun ring =>
      (List.range F).flatMap (fun i =>
        [(1 + ring * F + i, 1 + ring * F + F + i),
         (1 + ring * F + i, 1 + ring * F + (i + 1) % F)])),
      (1 ≤ e.1 ∧ 1 ≤ e.2) ∧ e.1 ≠ e.2 := by
  intro e he
  obtain ⟨ring, hring, i, hi, hx⟩ := hyperconeRingEdgesSimple_mem he
  rcases hx with rfl | rfl
  · refine ⟨⟨by omega, by omega⟩, by omega⟩
  · refine ⟨⟨by omega, by omega⟩, ?_⟩
    intro h
    exact succ_mod_ne hF hi (hyper_idx_inj hi (Nat.mod_lt _ (by omega)) h).2.symm

theorem hyperconeApexEdges_mem {F len : ℕ} {e : ℕ × ℕ}
    (h : e ∈ hyperconeApexEdges F len) :
    ∃ i, 1 ≤ i ∧ i ≤ min F (len - 1) ∧ e = (0, i) := by
  simp only [hyperconeApexEdges, List.mem_map, List.mem_range'_1] at h
  obtain ⟨i, ⟨h1, h2⟩, rfl⟩ := h
  exact ⟨i, h1, by omega, rfl⟩

theorem hyperconeApexEdges_pairwise (F len : ℕ) :
    (hyperconeApexEdges F len).Pairwise (fun e1 e2 => ¬ sameUnordered e1 e2) := by
  rw [hyperconeApexEdges, List.pairwise_map]
  refine (List.pairwise_lt_range' _ _).imp_of_mem ?_
  intro i i' him hi'm hlt
  rw [List.mem_range'_1] at him hi'm
  rintro (heq | ⟨h1, h2⟩)
  · have := congrArg Prod.snd heq
    simp only at this
    omega
  · simp only at h1 h2
    omega

/-- An apex edge and a ring edge are never the same unordered pair: the apex
edge starts at 0, the ring edge's endpoints are all `≥ 1`. -/
theorem apex_ne_ring {x y : ℕ × ℕ} (hx : x.1 = 0) (hy1 : 1 ≤ y.1) (hy2 : 1 ≤ y.2) :
    ¬ sameUnordered x y := by
  rintro (heq | ⟨h1, h2⟩)
  · subst heq
    omega
  · omega

theorem hyperconeApexEdges_bounds (F len : ℕ) :
    ∀ e ∈ hyperconeApexEdges F len, e.1 < len ∧ e.2 < len := by
  intro e he
  obtain ⟨i, h1, h2, rfl⟩ := hyperconeApexEdges_mem he
  refine ⟨?_, ?_⟩
  · show 0 < len
    omega
  · show i < len
    omega

/-- The explicit loop guards make the ring edges in-bounds by construction. -/
theorem hyperconeRingEdges_bounds (F len rings : ℕ) :
    ∀ e ∈ hyperconeRingEdges F len rings, e.1 < len ∧ e.2 < len := by
  intro e he
  simp only [hyperconeRingEdges, List.mem_flatMap, List.mem_append] at he
  obtain ⟨ring, hring, i, hi, he'⟩ := he
  rcases he' with he' | he'
  · by_cases hc : 1 + ring * F + i < len ∧ 1 + ring * F + F + i < len
    · rw [if_pos hc] at he'
      simp only [List.mem_singleton] at he'
      subst he'
      exact hc
    · rw [if_neg hc] at he'
      simp at he'
  · by_cases hc : 1 + ring * F + i < len ∧ 1 + ring * F + (i + 1) % F < len
    · rw [if_pos hc] at he'
      simp only [List.mem_singleton] at he'
      subst he'
      exact hc
    · rw [if_neg hc] at he'
      simp at he'

/-- Apex faces are in-bounds whenever `F ≤ len - 1` (which holds for
`rings ≥ 1`) or the face list is empty (`len ≤ 1`, i.e. `rings = 0`). -/
theorem hyperconeApexFaces_bounds {F len : ℕ} (h : F ≤ len - 1 ∨ len ≤ 1) :
    ∀ f ∈ hyperconeApexFaces F len, ∀ ix ∈ f, ix < len := by
  intro f hf ix hix
  simp only [hyperconeApexFaces, List.mem_map, List.mem_range'_1] at hf
  obtain ⟨i, ⟨h1, h2⟩, rfl⟩ := hf
  have hF1 : 1 ≤ F := by omega
  have hFle : F ≤ len - 1 := by
    rcases h with h | h
    · exact h
    · omega
  have hmod : i % F < F := Nat.mod_lt _ (by omega)
  simp only [List.mem_cons, List.not_mem_nil, or_false] at hix
  rcases hix with rfl | rfl | rfl
  · omega
  · omega
  · omega

theorem hyperconeRingFaces_bounds (F len rings : ℕ) :
    ∀ f ∈ hyperconeRingFaces F len rings, ∀ ix ∈ f, ix < len := by
  intro f hf ix hix
  simp only [hyperconeRingFaces, List.mem_flatMap] at hf
  obtain ⟨ring, hring, i, hi, hf'⟩ := hf
  by_cases hc : 1 + ring * F + i < len ∧ 1 + ring * F + (i + 1) % F < len ∧
      1 + ring * F + F + i < len
  · rw [if_pos hc] at hf'
    simp only [List.mem_singleton] at hf'
    subst hf'
    simp only [List.mem_cons, List.not_mem_nil, or_false] at hix
    rcases hix with rfl | rfl | rfl
    · exact hc.1
    · exact hc.2.1
    · exact hc.2.2
  · rw [if_neg hc] at hf'
    simp at hf'

/-! ### createGrandAntiprism

`createGrandAntiprism(size = 1)`: two perpendicular stacks of 5 decagonal
layers (10 vertices each, 100 in total), with in-layer decagon edges,
layer-to-layer vertical and diagonal edges, and the cross-ring connections
`(i, 50 + 3i mod 50)`, `(i, 50 + (3i+1) mod 50)` for `i < 50`.  All index
combinatorics are parameter-free, so the edge and face lists are concrete. -/

def grandAntiprismVertices (cos sin : ℚ → ℚ) (size : ℚ) : List (List ℚ) :=
  (List.range 2).flatMap (fun (ring : ℕ) =>
    (List.range 5).flatMap (fun (layer : ℕ) =>
      (List.range 10).map (fun (i : ℕ) =>
        if ring = 0 then
          [size * (1/2 + (layer : ℚ) / 5) * cos ((i : ℚ) / 10),
           size * (1/2 + (layer : ℚ) / 5) * sin ((i : ℚ) / 10),
           (layer : ℚ) * (3/10) * size - size * (3/5),
           0]
        else
          [0,
           (layer : ℚ) * (3/10) * size - size * (3/5),
           size * (1/2 + (layer : ℚ) / 5) * cos ((i : ℚ) / 10),
           size * (1/2 + (layer : ℚ) / 5) * sin ((i : ℚ) / 10)])))

def grandAntiprismEdges : List (ℕ × ℕ) :=
  (List.range 2).flatMap (fun ring =>
    (List.range 5).flatMap (fun layer =>
      (List.range 10).flatMap (fun i =>
        [(ring * 50 + layer * 10 + i, ring * 50 + layer * 10 + (i + 1) % 10)] ++
        (if layer < 4 then
          [(ring * 50 + layer * 10 + i, ring * 50 + layer * 10 + 10 + i),
           (ring * 50 + layer * 10 + i, ring * 50 + layer * 10 + 10 + (i + 1) % 10)]
         else [])))) ++
  (List.range 50).flatMap (fun i =>
    [(i, 50 + (i * 3) % 50), (i, 50 + (i * 3 + 1) % 50)])

def grandAntiprismFaces : List (List ℕ) :=
  (List.range 2).flatMap (fun ring =>
    (List.range 4).flatMap (fun layer =>
      (List.range 10).flatMap (fun i =>
        [[ring * 50 + layer * 10 + i, ring * 50 + layer * 10 + (i + 1) % 10,
          ring * 50 + layer * 10 + 10 + i],
         [ring * 50 + layer * 10 + (i + 1) % 10,
          ring * 50 + layer * 10 + 10 + (i + 1) % 10,
          ring * 50 + layer * 10 + 10 + i]])))

def createGrandAntiprism (cos sin : ℚ → ℚ) (size : ℚ) : GeometryND ℚ :=
  ⟨"Grand Antiprism", 4, grandAntiprismVertices cos sin size,
    grandAntiprismEdges, grandAntiprismFaces⟩

theorem grandAntiprismVertices_length (cos sin : ℚ → ℚ) (size : ℚ) :
    (grandAntiprismVertices cos sin size).length = 100 := by
  have h : ∀ r ∈ List.range 2,
      ((List.range 5).flatMap (fun (layer : ℕ) =>
        (List.range 10).map (fun (i : ℕ) =>
          if r = 0 then
            [size * (1/2 + (layer : ℚ) / 5) * cos ((i : ℚ) / 10),
             size * (1/2 + (layer : ℚ) / 5) * sin ((i : ℚ) / 10),
             (layer : ℚ) * (3/10) * size - size * (3/5),
             0]
          else
            [0,
             (layer : ℚ) * (3/10) * size - size * (3/5),
             size * (1/2 + (layer : ℚ) / 5) * cos ((i : ℚ) / 10),
             size * (1/2 + (layer : ℚ) / 5) * sin ((i : ℚ) / 10)]))).length = 50 :=
    fun r _ => by
      rw [length_flatMap_const _ _ 10 (fun l _ => by
        rw [List.length_map, List.length_range]), List.length_range]
  rw [grandAntiprismVertices, length_flatMap_const _ _ 50 h, List.length_range]

theorem grandAntiprismVertices_dim (cos sin : ℚ → ℚ) (size : ℚ) :
    ∀ v ∈ grandAntiprismVertices cos sin size, v.length = 4 := by
  intro v hv
  simp only [grandAntiprismVertices, List.mem_flatMap, List.mem_map,
    List.mem_range] at hv
  obtain ⟨ring, _, layer, _, i, _, rfl⟩ := hv
  split_ifs <;> rfl

theorem grandAntiprismEdges_bounds :
    ∀ e ∈ grandAntiprismEdges, e.1 < 100 ∧ e.2 < 100 := by
  decide

/-- The in-ring edges of the grand antiprism, re-indexed by the flattened
layer number `R = 5·ring + layer` (`R < 10`, block start `10·R`): the decagon
edge, and — when `R mod 5 ≠ 4`, i.e. `layer < 4` — the vertical and diagonal
connections into the next layer.  `grandAntiprismEdges` evaluates to exactly
this list followed by the cross-ring edges (`grandAntiprismEdges_split`). -/
def grandAntiprismRingEdges : List (ℕ × ℕ) :=
  (List.range 10).flatMap (fun R =>
    (List.range 10).flatMap (fun i =>
      [(R * 10 + i, R * 10 + (i + 1) % 10)] ++
      (if R % 5 ≠ 4 then
        [(R * 10 + i, (R + 1) * 10 + i),
         (R * 10 + i, (R + 1) * 10 + (i + 1) % 10)]
       else [])))

def grandAntiprismCrossEdges : List (ℕ × ℕ) :=
  (List.range 50).flatMap (fun i =>
    [(i, 50 + (i * 3) % 50), (i, 50 + (i * 3 + 1) % 50)])

theorem grandAntiprismEdges_split :
    grandAntiprismEdges = grandAntiprismRingEdges ++ grandAntiprismCrossEdges := by
  decide

theorem mem_gaCell {R i : ℕ} {x : ℕ × ℕ}
    (hx : x ∈ [(R * 10 + i, R * 10 + (i + 1) % 10)] ++
      (if R % 5 ≠ 4 then
        [(R * 10 + i, (R + 1) * 10 + i),
         (R * 10 + i, (R + 1) * 10 + (i + 1) % 10)]
       else [])) :
    x.1 = R * 10 + i ∧
      (x.2 = R * 10 + (i + 1) % 10 ∨
       (R % 5 ≠ 4 ∧ (x.2 = (R + 1) * 10 + i ∨ x.2 = (R + 1) * 10 + (i + 1) % 10))) := by
  rcases List.mem_append.mp hx with h | h
  · rw [List.mem_singleton] at h
    subst h
    exact ⟨rfl, Or.inl rfl⟩
  · by_cases h5 : R % 5 ≠ 4
    · rw [if_pos h5] at h
      simp only [List.mem_cons, List.not_mem_nil, or_false] at h
      rcases h with rfl | rfl
      · exact ⟨rfl, Or.inr ⟨h5, Or.inl rfl⟩⟩
      · exact ⟨rfl, Or.inr ⟨h5, Or.inr rfl⟩⟩
    · rw [if_neg h5] at h
      exact absurd h (List.not_mem_nil x)

theorem mem_gaCellRow {R : ℕ} {x : ℕ × ℕ}
    (hx : x ∈ (List.range 10).flatMap (fun i =>
      [(R * 10 + i, R * 10 + (i + 1) % 10)] ++
      (if R % 5 ≠ 4 then
        [(R * 10 + i, (R + 1) * 10 + i),
         (R * 10 + i, (R + 1) * 10 + (i + 1) % 10)]
       else []))) :
    ∃ i < 10, x.1 = R * 10 + i ∧
      (x.2 = R * 10 + (i + 1) % 10 ∨
       (R % 5 ≠ 4 ∧ (x.2 = (R + 1) * 10 + i ∨ x.2 = (R + 1) * 10 + (i + 1) % 10))) := by
  rw [List.mem_flatMap] at hx
  obtain ⟨i, hi, hx⟩ := hx
  rw [List.mem_range] at hi
  exact ⟨i, hi, mem_gaCell hx⟩

/-- Edges of distinct cells `(R, i) ≠ (R', i')` are never the same unordered
pair: equal first components force equal cells, and a swapped match forces a
layer or `mod 10` contradiction. -/
theorem ga_edge_ne_cells {x y : ℕ × ℕ} {R i R' i' : ℕ} (hi : i < 10) (hi' : i' < 10)
    (hx1 : x.1 = R * 10 + i)
    (hx2 : x.2 = R * 10 + (i + 1) % 10 ∨ x.2 = (R + 1) * 10 + i ∨
      x.2 = (R + 1) * 10 + (i + 1) % 10)
    (hy1 : y.1 = R' * 10 + i')
    (hy2 : y.2 = R' * 10 + (i' + 1) % 10 ∨ y.2 = (R' + 1) * 10 + i' ∨
      y.2 = (R' + 1) * 10 + (i' + 1) % 10)
    (hcell : ¬ (R = R' ∧ i = i')) :
    ¬ sameUnordered x y := by
  rintro (heq | ⟨h1, h2⟩)
  · subst heq
    exact hcell ⟨by omega, by omega⟩
  · rcases hx2 with hx2 | hx2 | hx2 <;> rcases hy2 with hy2 | hy2 | hy2 <;>
      exact hcell ⟨by omega, by omega⟩

/-- Two distinct edges of the same cell differ as unordered pairs. -/
theorem ga_edge_ne_same {x y : ℕ × ℕ} {R i : ℕ} (hi : i < 10)
    (hx1 : x.1 = R * 10 + i)
    (hx2 : x.2 = R * 10 + (i + 1) % 10 ∨ x.2 = (R + 1) * 10 + i ∨
      x.2 = (R + 1) * 10 + (i + 1) % 10)
    (hy1 : y.1 = R * 10 + i)
    (hy2 : y.2 = R * 10 + (i + 1) % 10 ∨ y.2 = (R + 1) * 10 + i ∨
      y.2 = (R + 1) * 10 + (i + 1) % 10)
    (hss : x.2 ≠ y.2) :
    ¬ sameUnordered x y := by
  rintro (heq | ⟨h1, h2⟩)
  · exact hss (by rw [heq])
  · rcases hx2 with hx2 | hx2 | hx2 <;> rcases hy2 with hy2 | hy2 | hy2 <;> omega

theorem grandAntiprismRingEdges_pairwise :
    grandAntiprismRingEdges.Pairwise (fun e1 e2 => ¬ sameUnordered e1 e2) := by
  refine List.pairwise_flatMap.mpr ⟨?_, ?_⟩
  · intro R hR
    refine List.pairwise_flatMap.mpr ⟨?_, ?_⟩
    · intro i hi
      rw [List.mem_range] at hi
      by_cases h5 : R % 5 ≠ 4
      · rw [if_pos h5, List.singleton_append]
        refine List.Pairwise.cons ?_ (List.Pairwise.cons ?_ (List.pairwise_singleton _ _))
        · intro y hy
          simp only [List.mem_cons, List.not_mem_nil, or_false] at hy
          rcases hy with rfl | rfl
          · exact ga_edge_ne_same hi rfl (Or.inl rfl) rfl (Or.inr (Or.inl rfl))
              (by simp only; omega)
          · exact ga_edge_ne_same hi rfl (Or.inl rfl) rfl (Or.inr (Or.inr rfl))
              (by simp only; omega)
        · intro y hy
          simp only [List.mem_cons, List.not_mem_nil, or_false] at hy
          subst hy
          exact ga_edge_ne_same hi rfl (Or.inr (Or.inl rfl)) rfl (Or.inr (Or.inr rfl))
            (by simp only; omega)
      · rw [if_neg h5, List.append_nil]
        exact List.pairwise_singleton _ _
    · refine (List.pairwise_lt_range 10).imp_of_mem ?_
      intro i i' him hi'm hlt x hx y hy
      rw [List.mem_range] at him hi'm
      obtain ⟨hx1, hx2⟩ := mem_gaCell hx
      obtain ⟨hy1, hy2⟩ := mem_gaCell hy
      refine ga_edge_ne_cells him hi'm hx1 ?_ hy1 ?_ (by omega)
      · rcases hx2 with h | ⟨-, h⟩
        · exact Or.inl h
        · exact Or.inr h
      · rcases hy2 with h | ⟨-, h⟩
        · exact Or.inl h
        · exact Or.inr h
  · refine (List.pairwise_lt_range 10).imp_of_mem ?_
    intro R R' hRm hR'm hlt x hx y hy
    obtain ⟨i, hi, hx1, hx2⟩ := mem_gaCellRow hx
    obtain ⟨i', hi', hy1, hy2⟩ := mem_gaCellRow hy
    refine ga_edge_ne_cells hi hi' hx1 ?_ hy1 ?_ (by omega)
    · rcases hx2 with h | ⟨-, h⟩
      · exact Or.inl h
      · exact Or.inr h
    · rcases hy2 with h | ⟨-, h⟩
      · exact Or.inl h
      · exact Or.inr h

/-- Every in-ring edge stays inside its ring's index block (`[0, 50)` for the
first ring, `[50, 100)` for the second). -/
theorem grandAntiprismRing_block {x : ℕ × ℕ} (hx : x ∈ grandAntiprismRingEdges) :
    (x.1 < 50 ∧ x.2 < 50) ∨ (50 ≤ x.1 ∧ 50 ≤ x.2) := by
  rw [grandAntiprismRingEdges, List.mem_flatMap] at hx
  obtain ⟨R, hR, hx⟩ := hx
  rw [List.mem_range] at hR
  obtain ⟨i, hi, hx1, hx2⟩ := mem_gaCellRow hx
  rcases hx2 with h | ⟨hg, h | h⟩ <;> omega

theorem mem_gaCross {y : ℕ × ℕ} (hy : y ∈ grandAntiprismCrossEdges) :
    ∃ i < 50, y.1 = i ∧ (y.2 = 50 + (i * 3) % 50 ∨ y.2 = 50 + (i * 3 + 1) % 50) := by
  rw [grandAntiprismCrossEdges, List.mem_flatMap] at hy
  obtain ⟨i, hi, hy⟩ := hy
  rw [List.mem_range] at hi
  simp only [List.mem_cons, List.not_mem_nil, or_false] at hy
  rcases hy with rfl | rfl
  · exact ⟨i, hi, rfl, Or.inl rfl⟩
  · exact ⟨i, hi, rfl, Or.inr rfl⟩

theorem grandAntiprismCrossEdges_pairwise :
    grandAntiprismCrossEdges.Pairwise (fun e1 e2 => ¬ sameUnordered e1 e2) := by
  refine List.pairwise_flatMap.mpr ⟨?_, ?_⟩
  · intro i hi
    rw [List.mem_range] at hi
    refine List.Pairwise.cons ?_ (List.pairwise_singleton _ _)
    intro y hy
    simp only [List.mem_cons, List.not_mem_nil, or_false] at hy
    subst hy
    rintro (heq | ⟨h1, h2⟩)
    · have h2 := congrArg Prod.snd heq
      simp only at h2
      omega
    · simp only at h1 h2
      omega
  · refine (List.pairwise_lt_range 50).imp_of_mem ?_
    intro i i' him hi'm hlt x hx y hy
    rw [List.mem_range] at him hi'm
    simp only [List.mem_cons, List.not_mem_nil, or_false] at hx hy
    rcases hx with rfl | rfl <;> rcases hy with rfl | rfl <;>
      rintro (heq | ⟨h1, h2⟩) <;>
      first
        | (have h1 := congrArg Prod.fst heq
           simp only at h1
           omega)
        | (simp only at h1 h2
           omega)

/-- An in-ring edge and a cross-ring edge are never the same unordered pair:
the former's endpoints lie in one ring block, the latter spans the blocks. -/
theorem ga_ring_ne_cross {x y : ℕ × ℕ}
    (hx : (x.1 < 50 ∧ x.2 < 50) ∨ (50 ≤ x.1 ∧ 50 ≤ x.2))
    (hy1 : y.1 < 50) (hy2 : 50 ≤ y.2) : ¬ sameUnordered x y := by
  rintro (rfl | ⟨h1, h2⟩)
  · rcases hx with h | h <;> omega
  · rcases hx with h | h <;> omega

theorem grandAntiprismEdges_pairwise :
    grandAntiprismEdges.Pairwise (fun e1 e2 => ¬ sameUnordered e1 e2) := by
  rw [grandAntiprismEdges_split]
  refine List.pairwise_append.mpr ⟨grandAntiprismRingEdges_pairwise,
    grandAntiprismCrossEdges_pairwise, ?_⟩
  intro x hx y hy
  obtain ⟨i, hi, hy1, hy2⟩ := mem_gaCross hy
  refine ga_ring_ne_cross (grandAntiprismRing_block hx) (by omega) (by omega)

theorem grandAntiprismEdges_noself : ∀ e ∈ grandAntiprismEdges, e.1 ≠ e.2 := by
  decide

theorem grandAntiprismFaces_bounds :
    ∀ f ∈ grandAntiprismFaces, ∀ ix ∈ f, ix < 100 := by
  decide

theorem createGrandAntiprism_invariants (cos sin : ℚ → ℚ) (size : ℚ) :
    geomInvariants (createGrandAntiprism cos sin size) := by
  have hlen : (createGrandAntiprism cos sin size).vertices.length = 100 :=
    grandAntiprismVertices_length cos sin size
  refine ⟨?_, ?_, ?_, ?_, ?_⟩
  · intro e hmem
    rw [hlen]
    exact grandAntiprismEdges_bounds e hmem
  · intro f hmem ix hix
    rw [hlen]
    exact grandAntiprismFaces_bounds f hmem ix hix
  · exact grandAntiprismVertices_dim cos sin size
  · exact grandAntiprismEdges_pairwise
  · exact grandAntiprismEdges_noself

theorem createHypercone_invariants (cos sin : ℚ → ℚ) (segments rings : ℕ)
    (size : ℚ) (hs : 3 ≤ segments) :
    geomInvariants (createHypercone cos sin segments rings size) := by
  have hF3 : 3 ≤ segments * (segments / 2) := by
    have h2 : segments * 1 ≤ segments * (segments / 2) :=
      Nat.mul_le_mul_left segments (by omega)
    omega
  have hv : (createHypercone cos sin segments rings size).vertices =
      hyperconeVertices cos sin segments rings size := rfl
  have he : (createHypercone cos sin segments rings size).edges =
      hyperconeApexEdges (segments * (segments / 2))
          (1 + rings * (segments * ((segments + 1) / 2))) ++
        hyperconeRingEdges (segments * (segments / 2))
          (1 + rings * (segments * ((segments + 1) / 2))) rings := by
    rw [← hyperconeVertices_length cos sin segments rings size]
    rfl
  have hf : (createHypercone cos sin segments rings size).faces =
      hyperconeApexFaces (segments * (segments / 2))
          (1 + rings * (segments * ((segments + 1) / 2))) ++
        hyperconeRingFaces (segments * (segments / 2))
          (1 + rings * (segments * ((segments + 1) / 2))) rings := by
    rw [← hyperconeVertices_length cos sin segments rings size]
    rfl
  have hlen : (createHypercone cos sin segments rings size).vertices.length =
      1 + rings * (segments * ((segments + 1) / 2)) := by
    rw [hv, hyperconeVertices_length]
  refine ⟨?_, ?_, ?_, ?_, ?_⟩
  · intro e hmem
    rw [he] at hmem
    rw [hlen]
    rcases List.mem_append.mp hmem with h | h
    · exact hyperconeApexEdges_bounds _ _ e h
    · exact hyperconeRingEdges_bounds _ _ _ e h
  · intro f hmem ix hix
    rw [hf] at hmem
    rw [hlen]
    rcases List.mem_append.mp hmem with h | h
    · refine hyperconeApexFaces_bounds ?_ f h ix hix
      rcases Nat.eq_zero_or_pos rings with hr | hr
      · right
        subst hr
        omega
      · left
        have ha : segments * (segments / 2) ≤ segments * ((segments + 1) / 2) :=
          Nat.mul_le_mul_left _ (Nat.div_le_div_right (by omega))
        have hb : segments * ((segments + 1) / 2) ≤
            rings * (segments * ((segments + 1) / 2)) :=
          Nat.le_mul_of_pos_left _ hr
        omega
    · exact hyperconeRingFaces_bounds _ _ _ f h ix hix
  · intro v hvm
    rw [hv] at hvm
    exact hyperconeVertices_dim cos sin segments rings size v hvm
  · rw [he, hyperconeRingEdges_eq]
    refine List.pairwise_append.mpr ⟨hyperconeApexEdges_pairwise _ _,
      hyperconeRingEdgesSimple_pairwise _ rings hF3, ?_⟩
    intro x hx y hy
    obtain ⟨i, hi1, hi2, rfl⟩ := hyperconeApexEdges_mem hx
    have hy' := hyperconeRingEdgesSimple_pos (by omega) y hy
    exact apex_ne_ring rfl hy'.1.1 hy'.1.2
  · intro e hmem
    rw [he, hyperconeRingEdges_eq] at hmem
    rcases List.mem_append.mp hmem with h | h
    · obtain ⟨i, hi1, hi2, rfl⟩ := hyperconeApexEdges_mem h
      show (0 : ℕ) ≠ i
      omega
    · exact (hyperconeRingEdgesSimple_pos (by omega) e h).2

/-- **C2** (corrected).  Structural invariants of the nine polytope
generators: all edge and face indices are in bounds, every vertex has
`dimension` components, and the edge list has no duplicate unordered pair and
no self-loop.  This holds for all parameters of `createHypercube`,
`createSimplex`, `createOrthoplex`, `create24Cell`, `create600Cell` and
`createGrandAntiprism`, and for the grid-based generators
(`createCliffordTorus`, `createDuocylinder`, `createHypercone`) once each
circular segment count is at least 3 — the original "every choice of
parameters" fails below that (see the counterexample). -/
theorem claim_C2_generator_invariants
    (cos sin sqrt : ℚ → ℚ) (dimension M m segments rings : ℕ) (size : ℚ)
    (hM : 3 ≤ M) (hm : 3 ≤ m) (hseg : 3 ≤ segments) :
    geomInvariants (createHypercube dimension size) ∧
    geomInvariants (createSimplex dimension size sqrt) ∧
    geomInvariants (createOrthoplex dimension size) ∧
    geomInvariants (create24Cell size) ∧
    geomInvariants (create600Cell size) ∧
    geomInvariants (createCliffordTorus cos sin sqrt M m size) ∧
    geomInvariants (createDuocylinder cos sin m size) ∧
    geomInvariants (createHypercone cos sin segments rings size) ∧
    geomInvariants (createGrandAntiprism cos sin size) :=
  ⟨createHypercube_invariants dimension size,
   createSimplex_invariants dimension size sqrt,
   createOrthoplex_invariants dimension size,
   create24Cell_invariants size,
   create600Cell_invariants size,
   createCliffordTorus_invariants cos sin sqrt M m size hM hm,
   createDuocylinder_invariants cos sin m size hm,
   createHypercone_invariants cos sin segments rings size hseg,
   createGrandAntiprism_invariants cos sin size⟩

/-- **C2**, counterexample to the claim as stated: with a single segment in
each direction the Clifford torus grid wraps onto itself and its edge list is
`[(0,0), (0,0)]` — a self-loop (and a duplicate unordered pair), violating
the invariants. -/
theorem claim_C2_counterexample :
    ¬ geomInvariants
        (createCliffordTorus (fun _ => 0) (fun _ => 0) (fun _ => 0) 1 1 1) := by
  intro h
  exact h.2.2.2.2 (0, 0) (by decide) rfl

/-- Witness for C2 at concrete parameters (dimension 4, all segment counts 3,
2 hypercone rings, size 1). -/
theorem claim_C2_witness :
    (3 ≤ 3) ∧
    (geomInvariants (createHypercube 4 (1 : ℚ)) ∧
     geomInvariants (createSimplex 4 1 (fun _ => 0)) ∧
     geomInvariants (createOrthoplex 4 1) ∧
     geomInvariants (create24Cell 1) ∧
     geomInvariants (create600Cell 1) ∧
     geomInvariants (createCliffordTorus (fun _ => 0) (fun _ => 0) (fun _ => 0) 3 3 1) ∧
     geomInvariants (createDuocylinder (fun _ => 0) (fun _ => 0) 3 1) ∧
     geomInvariants (createHypercone (fun _ => 0) (fun _ => 0) 3 2 1) ∧
     geomInvariants (createGrandAntiprism (fun _ => 0) (fun _ => 0) 1)) :=
  ⟨by decide,
   claim_C2_generator_invariants (fun _ => 0) (fun _ => 0) (fun _ => 0) 4 3 3 3 2 1
     (by decide) (by decide) (by decide)⟩

/-- **C5** (code bug).  The 600-cell candidate list does have the documented
8 + 16 + 96 = 120 entries, but de-duplication removes some of them, so the
vertex list has strictly fewer than the documented 120 entries (84 when
evaluated): the permutation/sign loop runs over 3 sign bits for 4 coordinate
slots, so the coordinate in slot 3 is never negated, and whenever the zero
value lands in one of slots 0–2 its sign bit produces the same vertex twice.
The duplicate exhibited below is candidate 32 = candidate 36 (permutation
`[0, 2, 3, 1]`, signs 0 and 4: bit 2 negates the zero in slot 2). -/
theorem claim_C5_600cell_vertex_count :
    (create600CellAxisVertices 1).length = 8 ∧
    (create600CellHalfVertices 1).length = 16 ∧
    (create600CellPermVertices 1).length = 96 ∧
    (create600CellAxisVertices 1 ++ create600CellHalfVertices 1 ++
        create600CellPermVertices 1).length = 120 ∧
    (create600Cell 1).vertices.length < 120 := by
  have hlen : (create600CellAxisVertices 1 ++ create600CellHalfVertices 1 ++
      create600CellPermVertices 1).length = 120 := by
    with_unfolding_all rfl
  have hdup : (create600CellAxisVertices 1 ++ create600CellHalfVertices 1 ++
        create600CellPermVertices 1).get ⟨32, by rw [hlen]; decide⟩ =
      (create600CellAxisVertices 1 ++ create600CellHalfVertices 1 ++
        create600CellPermVertices 1).get ⟨36, by rw [hlen]; decide⟩ := by
    with_unfolding_all rfl
  have hnd : ¬ (create600CellAxisVertices 1 ++ create600CellHalfVertices 1 ++
      create600CellPermVertices 1).Nodup := by
    intro h
    have h2 := (List.Nodup.get_inj_iff h).mp hdup
    have h3 : (32 : ℕ) = 36 := congrArg Fin.val h2
    exact absurd h3 (by decide)
  have hv : (create600Cell 1).vertices = create600CellVertices 1 := by
    unfold create600Cell
    dsimp only
  have hlt := dedupVertices_length_lt _ hnd
  rw [hlen] at hlt
  refine ⟨by with_unfolding_all rfl, by with_unfolding_all rfl,
    by with_unfolding_all rfl, hlen, ?_⟩
  rw [hv, create600CellVertices]
  exact hlt

/-- Witness for C1 at the concrete vectors `(1, 2)` and `(3, 4, 5)`. -/
theorem claim_C1_witness :
    (VectorND.add [(1 : ℚ), 2] [3, 4, 5]).length =
      max [(1 : ℚ), 2].length [(3 : ℚ), 4, 5].length ∧
    VectorND.dot [(1 : ℚ), 2] [3, 4, 5] =
      ∑ i ∈ Finset.range (min [(1 : ℚ), 2].length [(3 : ℚ), 4, 5].length),
        VectorND.get [(1 : ℚ), 2] i * VectorND.get [3, 4, 5] i := by
  have h := claim_C1_vector_policies [(1 : ℚ), 2] [3, 4, 5]
  exact ⟨h.1, h.2.2.2.2⟩

end FourD
